import Mathlib

/-!
Shallow embedding of the per-process virtual file-descriptor table
(`src/sandbox/src/vfs/fdtable.rs`).

* `i32` values are modelled as `Int`; the one place the Rust code can
  overflow (`next_vfd = vfd + 1` in `allocate_at` / `allocate_min`) is
  modelled with explicit wrapping (`wrap32`), matching release-mode
  two's-complement semantics.
* `HashMap<i32, FdEntry>` is modelled as an association list with
  no duplicate keys (`insertEntry` updates in place, `removeKey`
  removes the binding).
* `BinaryHeap<Reverse<i32>>` is modelled as a `List Int` regarded as a
  multiset: `push` is cons, `pop` removes one occurrence of the minimum,
  and the retain-filter of the Rust code is `removeAllFree`.
* Functions that can `panic!` / `.expect` in Rust return `Option`,
  with `none` standing for the panic.
* `BoxedFileOps` is opaque to the table; it is modelled as a `Nat` token.
-/

/-- `i32::MAX`. -/
def INT_MAX : Int := 2147483647

/-- Two's-complement wrap of an integer into the `i32` range
`[-2^31, 2^31)`, i.e. release-mode Rust `i32` overflow semantics. -/
def wrap32 (x : Int) : Int := (x + 2147483648) % 4294967296 - 2147483648

/-- `FdEntry` from `fdtable.rs`: a virtualized descriptor is either a
passthrough to a kernel FD or a virtual file backed by a `FileOps`
object (modelled as an opaque `Nat` token). -/
inductive FdEntry : Type
  /-- `FdEntry::Passthrough { kernel_fd, flags, path }` -/
  | passthrough (kernel_fd : Int) (flags : Int) (path : Option String)
  /-- `FdEntry::Virtual { file_ops, flags, path }` -/
  | virt (file_ops : Nat) (flags : Int) (path : Option String)
  deriving DecidableEq

namespace FdEntry

/-- `FdEntry::kernel_fd`: the kernel FD if this is a passthrough file. -/
def kernel_fd : FdEntry → Option Int
  | .passthrough k _ _ => some k
  | .virt _ _ _ => none

end FdEntry

/-- Association-list lookup, first binding wins (`HashMap::get`). -/
def lookupEntry : List (Int × FdEntry) → Int → Option FdEntry
  | [], _ => none
  | (k, v) :: rest, key => if key = k then some v else lookupEntry rest key

/-- `HashMap::contains_key`. -/
def containsKey (l : List (Int × FdEntry)) (k : Int) : Bool :=
  (lookupEntry l k).isSome

/-- `HashMap::insert`: replaces the binding in place, or appends it. -/
def insertEntry : List (Int × FdEntry) → Int → FdEntry → List (Int × FdEntry)
  | [], k, v => [(k, v)]
  | (k', v') :: rest, k, v =>
    if k = k' then (k, v) :: rest else (k', v') :: insertEntry rest k v

/-- `HashMap::remove` (on lists without duplicate keys). -/
def removeKey : List (Int × FdEntry) → Int → List (Int × FdEntry)
  | [], _ => []
  | (k', v') :: rest, k =>
    if k = k' then rest else (k', v') :: removeKey rest k

/-- Minimum of a list of integers (`none` on the empty list). -/
def listMin : List Int → Option Int
  | [] => none
  | x :: xs =>
    match listMin xs with
    | none => some x
    | some m => some (min x m)

/-- Remove the first occurrence of `v` from `l`. -/
def removeOne : List Int → Int → List Int
  | [], _ => []
  | x :: xs, v => if x = v then xs else x :: removeOne xs v

/-- `BinaryHeap::pop` on a min-heap of `i32`: extract one occurrence of
the minimum. -/
def popMin (l : List Int) : Option (Int × List Int) :=
  match listMin l with
  | none => none
  | some m => some (m, removeOne l m)

/-- The retain-filter `free_fds.into_iter().filter(|fd| fd != vfd)`:
removes every occurrence of `v`. -/
def removeAllFree : List Int → Int → List Int
  | [], _ => []
  | f :: rest, v => if f = v then removeAllFree rest v else f :: removeAllFree rest v

/-- The gap-repopulation loop shared by `allocate_min` / `allocate_at`:

```rust
let mut fd = inner.next_vfd;
while fd < vfd {
    if fd >= FIRST_USER_FD && !inner.entries.contains_key(&fd) {
        inner.free_fds.push(std::cmp::Reverse(fd));
    }
    fd = fd.checked_add(1).expect("fd overflow");
}
```

`start` is the running `fd`, `fuel` the remaining iteration count
`(vfd - fd)`; the `checked_add` can never fire because `fd < vfd ≤ i32::MAX`
throughout the loop. -/
def repopGaps (ent : List (Int × FdEntry)) : Int → Nat → List Int → List Int
  | _, 0, free => free
  | start, n + 1, free =>
    repopGaps ent (start + 1) n
      (if 3 ≤ start ∧ containsKey ent start = false then start :: free else free)

/-- The scan `(start..i32::MAX).find(|fd| !entries.contains_key(fd))`,
with `fuel = (i32::MAX - start).toNat` iterations. -/
def findFree (ent : List (Int × FdEntry)) : Int → Nat → Option Int
  | _, 0 => none
  | start, n + 1 =>
    if containsKey ent start then findFree ent (start + 1) n else some start

/-- `FdTableInner`: the state protected by the table's mutex. -/
structure FdTable : Type where
  /-- `entries: HashMap<i32, FdEntry>` -/
  entries : List (Int × FdEntry)
  /-- `next_vfd: i32` -/
  next_vfd : Int
  /-- `free_fds: BinaryHeap<Reverse<i32>>`, as a multiset -/
  free_fds : List Int
  deriving DecidableEq

namespace FdTable

/-- `FdTable::new`: the three standard FDs as passthroughs,
`next_vfd = 3`, empty free set. -/
def new : FdTable :=
  { entries :=
      [(0, .passthrough 0 0 none), (1, .passthrough 1 0 none),
       (2, .passthrough 2 0 none)]
    next_vfd := 3
    free_fds := [] }

/-- `FdTable::deep_clone`: a value copy of the inner state. -/
def deep_clone (t : FdTable) : FdTable :=
  { entries := t.entries, next_vfd := t.next_vfd, free_fds := t.free_fds }

/-- `FdTable::allocate`. `none` models the
`expect("File descriptor table exhausted")` panic of the fallback scan. -/
def allocate (t : FdTable) (entry : FdEntry) : Option (Int × FdTable) :=
  match popMin t.free_fds with
  | some (m, rest) =>
    some (m, { t with entries := insertEntry t.entries m entry, free_fds := rest })
  | none =>
    if t.next_vfd = INT_MAX then
      match findFree t.entries 3 (INT_MAX - 3).toNat with
      | none => none
      | some v => some (v, { t with entries := insertEntry t.entries v entry })
    else
      some (t.next_vfd,
        { t with entries := insertEntry t.entries t.next_vfd entry,
                 next_vfd := t.next_vfd + 1 })

/-- `FdTable::allocate_min`. `none` models the
`expect("File descriptor table exhausted")` panic when the scan finds
nothing in `(min_vfd..i32::MAX)`. -/
def allocate_min (t : FdTable) (min_vfd : Int) (entry : FdEntry) :
    Option (Int × FdTable) :=
  match findFree t.entries min_vfd (INT_MAX - min_vfd).toNat with
  | none => none
  | some vfd =>
    let free1 :=
      if t.next_vfd ≤ vfd then
        repopGaps t.entries t.next_vfd (vfd - t.next_vfd).toNat t.free_fds
      else t.free_fds
    let next1 := if t.next_vfd ≤ vfd then wrap32 (vfd + 1) else t.next_vfd
    some (vfd,
      { entries := insertEntry t.entries vfd entry,
        next_vfd := next1,
        free_fds := removeAllFree free1 vfd })

/-- `FdTable::allocate_at`: install `entry` at exactly `vfd`, returning
the prior entry there if any. -/
def allocate_at (t : FdTable) (vfd : Int) (entry : FdEntry) :
    Option FdEntry × FdTable :=
  let free1 := removeAllFree t.free_fds vfd
  let free2 :=
    if t.next_vfd ≤ vfd then
      repopGaps t.entries t.next_vfd (vfd - t.next_vfd).toNat free1
    else free1
  let next1 := if t.next_vfd ≤ vfd then wrap32 (vfd + 1) else t.next_vfd
  (lookupEntry t.entries vfd,
    { entries := insertEntry t.entries vfd entry,
      next_vfd := next1,
      free_fds := free2 })

/-- `FdTable::translate`: kernel FD of a passthrough entry. -/
def translate (t : FdTable) (vfd : Int) : Option Int :=
  (lookupEntry t.entries vfd).bind FdEntry.kernel_fd

/-- `FdTable::get`: value copy of the entry. -/
def get (t : FdTable) (vfd : Int) : Option FdEntry :=
  lookupEntry t.entries vfd

/-- `FdTable::deallocate`: remove `vfd`; push it on the free set when
`vfd ≥ FIRST_USER_FD`. -/
def deallocate (t : FdTable) (vfd : Int) : Option FdEntry × FdTable :=
  match lookupEntry t.entries vfd with
  | none => (none, t)
  | some e =>
    (some e,
      { entries := removeKey t.entries vfd,
        next_vfd := t.next_vfd,
        free_fds := if 3 ≤ vfd then vfd :: t.free_fds else t.free_fds })

/-- `FdTable::duplicate`. Outer `none` models the exhaustion panic inside
`allocate`; `some (none, t)` is the POSIX "old VFD absent" result. -/
def duplicate (t : FdTable) (old_vfd : Int) : Option (Option Int × FdTable) :=
  match t.get old_vfd with
  | none => some (none, t)
  | some entry =>
    match t.allocate entry with
    | none => none
    | some (v, t') => some (some v, t')

/-- `FdTable::duplicate_at`: `dup2`. -/
def duplicate_at (t : FdTable) (old_vfd new_vfd : Int) :
    Option FdEntry × FdTable :=
  match t.get old_vfd with
  | none => (none, t)
  | some entry => t.allocate_at new_vfd entry

end FdTable

/-! ### Lemmas about the association-list model of `HashMap` -/

/-- Keys of the entry list are pairwise distinct. -/
def keysNodup (l : List (Int × FdEntry)) : Prop := (l.map Prod.fst).Nodup

theorem lookupEntry_insertEntry_self (l : List (Int × FdEntry)) (k : Int) (v : FdEntry) :
    lookupEntry (insertEntry l k v) k = some v := by
  induction l with
  | nil => simp [insertEntry, lookupEntry]
  | cons p rest ih =>
    obtain ⟨k', v'⟩ := p
    by_cases h : k = k' <;> simp [insertEntry, lookupEntry, h, ih]

theorem lookupEntry_insertEntry_ne (l : List (Int × FdEntry)) (k : Int) (v : FdEntry)
    (k' : Int) (h : k' ≠ k) :
    lookupEntry (insertEntry l k v) k' = lookupEntry l k' := by
  induction l with
  | nil => simp [insertEntry, lookupEntry, h]
  | cons p rest ih =>
    obtain ⟨a, b⟩ := p
    by_cases hk : k = a
    · subst hk
      simp [insertEntry, lookupEntry, h]
    · by_cases hk' : k' = a <;> simp [insertEntry, lookupEntry, hk, hk', ih]

theorem containsKey_insertEntry (l : List (Int × FdEntry)) (k : Int) (v : FdEntry)
    (k' : Int) :
    containsKey (insertEntry l k v) k' = true ↔ k' = k ∨ containsKey l k' = true := by
  by_cases h : k' = k
  · subst h
    simp [containsKey, lookupEntry_insertEntry_self]
  · simp [containsKey, lookupEntry_insertEntry_ne l k v k' h, h]

theorem lookupEntry_removeKey_ne (l : List (Int × FdEntry)) (k k' : Int) (h : k' ≠ k) :
    lookupEntry (removeKey l k) k' = lookupEntry l k' := by
  induction l with
  | nil => simp [removeKey]
  | cons p rest ih =>
    obtain ⟨a, b⟩ := p
    by_cases hk : k = a
    · subst hk
      simp [removeKey, lookupEntry, h]
    · by_cases hk' : k' = a <;> simp [removeKey, lookupEntry, hk, hk', ih]

theorem not_mem_keys_lookupEntry (l : List (Int × FdEntry)) (k : Int)
    (h : k ∉ l.map Prod.fst) : lookupEntry l k = none := by
  induction l with
  | nil => rfl
  | cons p rest ih =>
    obtain ⟨a, b⟩ := p
    simp only [List.map_cons, List.mem_cons] at h
    push_neg at h
    simp [lookupEntry, h.1, ih h.2]

theorem lookupEntry_removeKey_self (l : List (Int × FdEntry)) (k : Int)
    (h : keysNodup l) : lookupEntry (removeKey l k) k = none := by
  induction l with
  | nil => rfl
  | cons p rest ih =>
    obtain ⟨a, b⟩ := p
    simp only [keysNodup, List.map_cons, List.nodup_cons] at h
    by_cases hk : k = a
    · simp only [removeKey, if_pos hk]
      subst hk
      exact not_mem_keys_lookupEntry rest k h.1
    · simp [removeKey, lookupEntry, hk, ih h.2]

theorem fst_mem_insertEntry (l : List (Int × FdEntry)) (k : Int) (v : FdEntry) (a : Int) :
    a ∈ (insertEntry l k v).map Prod.fst ↔ a = k ∨ a ∈ l.map Prod.fst := by
  induction l with
  | nil => simp [insertEntry]
  | cons p rest ih =>
    obtain ⟨k', v'⟩ := p
    by_cases h : k = k'
    · subst h
      simp [insertEntry]
    · simp only [insertEntry, if_neg h, List.map_cons, List.mem_cons, ih]
      tauto

theorem keysNodup_insertEntry (l : List (Int × FdEntry)) (k : Int) (v : FdEntry)
    (h : keysNodup l) : keysNodup (insertEntry l k v) := by
  induction l with
  | nil => simp [keysNodup, insertEntry]
  | cons p rest ih =>
    obtain ⟨a, b⟩ := p
    simp only [keysNodup, List.map_cons, List.nodup_cons] at h
    by_cases hk : k = a
    · subst hk
      simpa [keysNodup, insertEntry] using h
    · have := ih h.2
      simp only [keysNodup, insertEntry, if_neg hk, List.map_cons, List.nodup_cons]
      refine ⟨?_, this⟩
      rw [fst_mem_insertEntry]
      rintro (rfl | hmem)
      · exact hk rfl
      · exact h.1 hmem

theorem keys_removeKey_subset (l : List (Int × FdEntry)) (k : Int) (a : Int)
    (h : a ∈ (removeKey l k).map Prod.fst) : a ∈ l.map Prod.fst := by
  induction l with
  | nil => simp [removeKey] at h
  | cons p rest ih =>
    obtain ⟨a', b'⟩ := p
    by_cases hk : k = a'
    · simp only [removeKey, if_pos hk] at h
      simp [h]
    · simp only [removeKey, if_neg hk, List.map_cons, List.mem_cons] at h ⊢
      rcases h with h | h
      · exact Or.inl h
      · exact Or.inr (ih h)

theorem keysNodup_removeKey (l : List (Int × FdEntry)) (k : Int)
    (h : keysNodup l) : keysNodup (removeKey l k) := by
  induction l with
  | nil => simpa [removeKey] using h
  | cons p rest ih =>
    obtain ⟨a, b⟩ := p
    simp only [keysNodup, List.map_cons, List.nodup_cons] at h
    by_cases hk : k = a
    · simp only [keysNodup, removeKey, if_pos hk]
      exact h.2
    · simp only [keysNodup, removeKey, if_neg hk, List.map_cons, List.nodup_cons]
      exact ⟨fun hm => h.1 (keys_removeKey_subset rest k a hm), ih h.2⟩

/-! ### Lemmas about the list model of the free-FD min-heap -/

theorem listMin_eq_none_iff (l : List Int) : listMin l = none ↔ l = [] := by
  cases l with
  | nil => simp [listMin]
  | cons x xs =>
    simp only [listMin]
    cases listMin xs <;> simp

theorem listMin_mem (l : List Int) (m : Int) (h : listMin l = some m) : m ∈ l := by
  induction l generalizing m with
  | nil => simp [listMin] at h
  | cons x xs ih =>
    simp only [listMin] at h
    cases hx : listMin xs with
    | none =>
      rw [hx] at h
      simp only [Option.some.injEq] at h
      subst h
      exact List.mem_cons_self x xs
    | some m' =>
      rw [hx] at h
      simp only [Option.some.injEq] at h
      subst h
      rcases le_total x m' with hle | hle
      · rw [min_eq_left hle]
        exact List.mem_cons_self x xs
      · rw [min_eq_right hle]
        exact List.mem_cons_of_mem x (ih m' hx)

theorem listMin_le (l : List Int) (m : Int) (h : listMin l = some m) :
    ∀ x ∈ l, m ≤ x := by
  induction l generalizing m with
  | nil => simp
  | cons y ys ih =>
    intro x hx
    simp only [listMin] at h
    cases hy : listMin ys with
    | none =>
      rw [hy] at h
      simp only [Option.some.injEq] at h
      rw [listMin_eq_none_iff] at hy
      subst hy
      subst h
      simp only [List.mem_singleton] at hx
      omega
    | some m' =>
      rw [hy] at h
      simp only [Option.some.injEq] at h
      subst h
      rcases List.mem_cons.mp hx with rfl | hx'
      · exact min_le_left _ _
      · exact le_trans (min_le_right _ _) (ih m' hy x hx')

theorem mem_of_mem_removeOne (l : List Int) (v x : Int) (h : x ∈ removeOne l v) :
    x ∈ l := by
  induction l with
  | nil => simpa [removeOne] using h
  | cons y ys ih =>
    by_cases hy : y = v
    · simp only [removeOne, if_pos hy] at h
      exact List.mem_cons_of_mem y h
    · simp only [removeOne, if_neg hy, List.mem_cons] at h
      rcases h with rfl | h
      · exact List.mem_cons_self x ys
      · exact List.mem_cons_of_mem y (ih h)

theorem mem_removeOne_of_ne (l : List Int) (v x : Int) (hx : x ∈ l) (hne : x ≠ v) :
    x ∈ removeOne l v := by
  induction l with
  | nil => simp at hx
  | cons y ys ih =>
    by_cases hy : y = v
    · simp only [removeOne, if_pos hy]
      rcases List.mem_cons.mp hx with rfl | h
      · exact absurd hy hne
      · exact h
    · simp only [removeOne, if_neg hy, List.mem_cons]
      rcases List.mem_cons.mp hx with rfl | h
      · exact Or.inl rfl
      · exact Or.inr (ih h)

theorem nodup_removeOne (l : List Int) (v : Int) (h : l.Nodup) :
    (removeOne l v).Nodup := by
  induction l with
  | nil => simpa [removeOne] using h
  | cons y ys ih =>
    simp only [List.nodup_cons] at h
    by_cases hy : y = v
    · simp only [removeOne, if_pos hy]
      exact h.2
    · simp only [removeOne, if_neg hy, List.nodup_cons]
      exact ⟨fun hm => h.1 (mem_of_mem_removeOne ys v y hm), ih h.2⟩

theorem ne_of_mem_removeOne_of_nodup (l : List Int) (v x : Int) (h : l.Nodup)
    (hx : x ∈ removeOne l v) (hv : v ∈ l) : x ≠ v := by
  induction l with
  | nil => simp at hv
  | cons y ys ih =>
    simp only [List.nodup_cons] at h
    by_cases hy : y = v
    · simp only [removeOne, if_pos hy] at hx
      subst hy
      rintro rfl
      exact h.1 hx
    · simp only [removeOne, if_neg hy, List.mem_cons] at hx
      rcases hx with rfl | hx
      · exact hy
      · rcases List.mem_cons.mp hv with rfl | hv'
        · exact absurd rfl hy
        · exact ih h.2 hx hv'

theorem popMin_eq_none_iff (l : List Int) : popMin l = none ↔ l = [] := by
  simp only [popMin]
  cases h : listMin l with
  | none => simpa using (listMin_eq_none_iff l).mp h
  | some m =>
    simp only []
    constructor
    · intro hc
      exact absurd hc (by simp)
    · rintro rfl
      simp [listMin] at h

theorem popMin_spec (l : List Int) (m : Int) (rest : List Int)
    (h : popMin l = some (m, rest)) :
    m ∈ l ∧ (∀ x ∈ l, m ≤ x) ∧ rest = removeOne l m := by
  simp only [popMin] at h
  cases hl : listMin l with
  | none => rw [hl] at h; simp at h
  | some m' =>
    rw [hl] at h
    simp only [Option.some.injEq, Prod.mk.injEq] at h
    obtain ⟨rfl, rfl⟩ := h
    exact ⟨listMin_mem l m' hl, listMin_le l m' hl, rfl⟩

theorem mem_removeAllFree (l : List Int) (v x : Int) :
    x ∈ removeAllFree l v ↔ x ∈ l ∧ x ≠ v := by
  induction l with
  | nil => simp [removeAllFree]
  | cons y ys ih =>
    by_cases hy : y = v
    · simp only [removeAllFree, if_pos hy, ih, List.mem_cons]
      constructor
      · rintro ⟨hm, hne⟩
        exact ⟨Or.inr hm, hne⟩
      · rintro ⟨rfl | hm, hne⟩
        · exact absurd hy hne
        · exact ⟨hm, hne⟩
    · simp only [removeAllFree, if_neg hy, List.mem_cons, ih]
      constructor
      · rintro (rfl | ⟨hm, hne⟩)
        · exact ⟨Or.inl rfl, hy⟩
        · exact ⟨Or.inr hm, hne⟩
      · rintro ⟨rfl | hm, hne⟩
        · exact Or.inl rfl
        · exact Or.inr ⟨hm, hne⟩

theorem nodup_removeAllFree (l : List Int) (v : Int) (h : l.Nodup) :
    (removeAllFree l v).Nodup := by
  induction l with
  | nil => simpa [removeAllFree] using h
  | cons y ys ih =>
    simp only [List.nodup_cons] at h
    by_cases hy : y = v
    · simp only [removeAllFree, if_pos hy]
      exact ih h.2
    · simp only [removeAllFree, if_neg hy, List.nodup_cons]
      exact ⟨fun hm => h.1 ((mem_removeAllFree ys v y).mp hm).1, ih h.2⟩

/-! ### Characterizations of the two integer loops -/

theorem findFree_eq_some_iff (ent : List (Int × FdEntry)) :
    ∀ (fuel : Nat) (start v : Int),
      findFree ent start fuel = some v ↔
        start ≤ v ∧ v < start + fuel ∧ containsKey ent v = false ∧
          ∀ u, start ≤ u → u < v → containsKey ent u = true := by
  intro fuel
  induction fuel with
  | zero =>
    intro start v
    simp only [findFree]
    constructor
    · intro h; exact absurd h (by simp)
    · rintro ⟨h1, h2, -⟩
      omega
  | succ n ih =>
    intro start v
    simp only [findFree]
    by_cases hc : containsKey ent start
    · rw [if_pos hc, ih (start + 1) v]
      constructor
      · rintro ⟨h1, h2, h3, h4⟩
        refine ⟨by omega, by push_cast; push_cast at h2; omega, h3, ?_⟩
        intro u hu1 hu2
        rcases eq_or_lt_of_le hu1 with rfl | hlt
        · exact hc
        · exact h4 u (by omega) hu2
      · rintro ⟨h1, h2, h3, h4⟩
        have hne : v ≠ start := by
          rintro rfl
          rw [hc] at h3
          exact absurd h3 (by simp)
        refine ⟨by omega, by push_cast; push_cast at h2; omega, h3, ?_⟩
        intro u hu1 hu2
        exact h4 u (by omega) hu2
    · rw [if_neg hc]
      simp only [Bool.not_eq_true] at hc
      constructor
      · rintro h
        simp only [Option.some.injEq] at h
        subst h
        refine ⟨le_refl _, by push_cast; omega, hc, ?_⟩
        intro u hu1 hu2
        omega
      · rintro ⟨h1, h2, h3, h4⟩
        rcases eq_or_lt_of_le h1 with rfl | hlt
        · rfl
        · have := h4 start (le_refl _) hlt
          rw [this] at hc
          exact absurd hc (by simp)

theorem findFree_eq_none_iff (ent : List (Int × FdEntry)) :
    ∀ (fuel : Nat) (start : Int),
      findFree ent start fuel = none ↔
        ∀ u, start ≤ u → u < start + fuel → containsKey ent u = true := by
  intro fuel
  induction fuel with
  | zero =>
    intro start
    simp only [findFree]
    constructor
    · intro _ u h1 h2
      omega
    · intro _
      trivial
  | succ n ih =>
    intro start
    simp only [findFree]
    by_cases hc : containsKey ent start
    · rw [if_pos hc, ih (start + 1)]
      constructor
      · intro h u hu1 hu2
        rcases eq_or_lt_of_le hu1 with rfl | hlt
        · exact hc
        · exact h u (by omega) (by push_cast; push_cast at hu2; omega)
      · intro h u hu1 hu2
        exact h u (by omega) (by push_cast; push_cast at hu2; omega)
    · rw [if_neg hc]
      simp only [Bool.not_eq_true] at hc
      constructor
      · intro h
        exact absurd h (by simp)
      · intro h
        have := h start (le_refl _) (by push_cast; omega)
        rw [this] at hc
        exact absurd hc (by simp)

theorem mem_repopGaps (ent : List (Int × FdEntry)) :
    ∀ (n : Nat) (start : Int) (init : List Int) (g : Int),
      g ∈ repopGaps ent start n init ↔
        g ∈ init ∨
          (3 ≤ g ∧ start ≤ g ∧ g < start + n ∧ containsKey ent g = false) := by
  intro n
  induction n with
  | zero =>
    intro start init g
    simp only [repopGaps]
    constructor
    · exact Or.inl
    · rintro (h | ⟨-, h1, h2, -⟩)
      · exact h
      · omega
  | succ m ih =>
    intro start init g
    simp only [repopGaps, ih (start + 1)]
    by_cases hc : 3 ≤ start ∧ containsKey ent start = false
    · rw [if_pos hc]
      simp only [List.mem_cons]
      constructor
      · rintro ((rfl | h) | ⟨h1, h2, h3, h4⟩)
        · exact Or.inr ⟨hc.1, le_refl _, by push_cast; omega, hc.2⟩
        · exact Or.inl h
        · exact Or.inr ⟨h1, by omega, by push_cast; push_cast at h3; omega, h4⟩
      · rintro (h | ⟨h1, h2, h3, h4⟩)
        · exact Or.inl (Or.inr h)
        · rcases eq_or_lt_of_le h2 with rfl | hlt
          · exact Or.inl (Or.inl rfl)
          · exact Or.inr ⟨h1, by omega, by push_cast; push_cast at h3; omega, h4⟩
    · rw [if_neg hc]
      constructor
      · rintro (h | ⟨h1, h2, h3, h4⟩)
        · exact Or.inl h
        · exact Or.inr ⟨h1, by omega, by push_cast; push_cast at h3; omega, h4⟩
      · rintro (h | ⟨h1, h2, h3, h4⟩)
        · exact Or.inl h
        · rcases eq_or_lt_of_le h2 with rfl | hlt
          · rw [Classical.not_and_iff_or_not_not] at hc
            rcases hc with hc | hc
            · exact absurd h1 hc
            · exact absurd h4 hc
          · exact Or.inr ⟨h1, by omega, by push_cast; push_cast at h3; omega, h4⟩

theorem repopGaps_nodup_and_lt (ent : List (Int × FdEntry)) :
    ∀ (n : Nat) (start : Int) (init : List Int),
      init.Nodup → (∀ x ∈ init, x < start) →
      (repopGaps ent start n init).Nodup ∧
        ∀ x ∈ repopGaps ent start n init, x < start + n := by
  intro n
  induction n with
  | zero =>
    intro start init h1 h2
    simp only [repopGaps]
    exact ⟨h1, fun x hx => by have := h2 x hx; push_cast; omega⟩
  | succ m ih =>
    intro start init h1 h2
    simp only [repopGaps]
    by_cases hc : 3 ≤ start ∧ containsKey ent start = false
    · rw [if_pos hc]
      have hnd : (start :: init).Nodup := by
        simp only [List.nodup_cons]
        exact ⟨fun hm => absurd (h2 start hm) (by omega), h1⟩
      have hlt : ∀ x ∈ start :: init, x < start + 1 := by
        intro x hx
        rcases List.mem_cons.mp hx with rfl | hx'
        · omega
        · have := h2 x hx'; omega
      obtain ⟨ha, hb⟩ := ih (start + 1) (start :: init) hnd hlt
      refine ⟨ha, fun x hx => ?_⟩
      have := hb x hx
      push_cast at this ⊢
      omega
    · rw [if_neg hc]
      have hlt : ∀ x ∈ init, x < start + 1 := fun x hx => by have := h2 x hx; omega
      obtain ⟨ha, hb⟩ := ih (start + 1) init h1 hlt
      refine ⟨ha, fun x hx => ?_⟩
      have := hb x hx
      push_cast at this ⊢
      omega

/-! ### Small boolean / arithmetic helpers -/

theorem containsKey_false_iff (l : List (Int × FdEntry)) (k : Int) :
    containsKey l k = false ↔ ¬ containsKey l k = true := by
  cases h : containsKey l k <;> simp

theorem containsKey_removeKey_ne (l : List (Int × FdEntry)) (k k' : Int)
    (h : k' ≠ k) : containsKey (removeKey l k) k' = containsKey l k' := by
  simp [containsKey, lookupEntry_removeKey_ne l k k' h]

theorem containsKey_removeKey_imp (l : List (Int × FdEntry)) (k k' : Int)
    (hn : keysNodup l) (h : containsKey (removeKey l k) k' = true) :
    containsKey l k' = true := by
  by_cases hk : k' = k
  · subst hk
    simp [containsKey, lookupEntry_removeKey_self l k' hn] at h
  · rwa [containsKey_removeKey_ne l k k' hk] at h

theorem wrap32_eq_self (x : Int) (h1 : -2147483648 ≤ x) (h2 : x ≤ 2147483647) :
    wrap32 x = x := by
  have : (x + 2147483648) % 4294967296 = x + 2147483648 :=
    Int.emod_eq_of_lt (by omega) (by omega)
  simp [wrap32, this]

theorem INT_MAX_eq : INT_MAX = 2147483647 := rfl

theorem toNat_coe_of_le (a b : Int) (h : a ≤ b) : ((b - a).toNat : Int) = b - a :=
  Int.toNat_of_nonneg (by omega)

/-- `findFree` over the scan range `(start..i32::MAX)`: the result is the
smallest VFD `≥ start` absent from the mapping, and it is `< i32::MAX`. -/
theorem findFree_scan_spec (ent : List (Int × FdEntry)) (start v : Int)
    (h : findFree ent start (INT_MAX - start).toNat = some v) :
    start ≤ v ∧ v < INT_MAX ∧ containsKey ent v = false ∧
      ∀ u, start ≤ u → u < v → containsKey ent u = true := by
  rw [findFree_eq_some_iff] at h
  obtain ⟨h1, h2, h3, h4⟩ := h
  by_cases hs : start ≤ INT_MAX
  · rw [toNat_coe_of_le start INT_MAX hs] at h2
    exact ⟨h1, by omega, h3, h4⟩
  · rw [Int.toNat_eq_zero.mpr (by omega)] at h2
    simp at h2
    omega

/-! ### The state invariant maintained by the table -/

/-- Invariant of a well-formed table state (§3 of the spec, adapted to
the code): no duplicate keys, `3 ≤ next_vfd ≤ i32::MAX`, the free set
is duplicate-free and holds exactly the unallocated VFDs of
`[3, next_vfd)`, and every allocated key `≥ 3` is below `next_vfd`. -/
def TableInv (t : FdTable) : Prop :=
  keysNodup t.entries ∧
  (3 ≤ t.next_vfd ∧ t.next_vfd ≤ INT_MAX) ∧
  t.free_fds.Nodup ∧
  (∀ f ∈ t.free_fds, 3 ≤ f ∧ f < t.next_vfd ∧ containsKey t.entries f = false) ∧
  (∀ k, 3 ≤ k → containsKey t.entries k = true → k < t.next_vfd) ∧
  (∀ u, 3 ≤ u → u < t.next_vfd →
    containsKey t.entries u = true ∨ u ∈ t.free_fds)

theorem TableInv_new : TableInv FdTable.new := by
  refine ⟨by simp [keysNodup, FdTable.new], ⟨by decide, by decide⟩, by decide,
    by simp [FdTable.new], ?_, ?_⟩
  · intro k h3 hk
    simp only [FdTable.new, containsKey, lookupEntry] at hk
    split at hk
    · omega
    · split at hk
      · omega
      · split at hk
        · omega
        · simp at hk
  · intro u h3 hu
    simp only [FdTable.new] at hu
    omega

/-! ### Destructor lemmas for the operations -/

theorem allocate_cases (t : FdTable) (e : FdEntry) (v : Int) (t' : FdTable)
    (h : t.allocate e = some (v, t')) :
    (∃ rest, popMin t.free_fds = some (v, rest) ∧
      t' = { t with entries := insertEntry t.entries v e, free_fds := rest }) ∨
    (t.free_fds = [] ∧ t.next_vfd = INT_MAX ∧
      findFree t.entries 3 (INT_MAX - 3).toNat = some v ∧
      t' = { t with entries := insertEntry t.entries v e }) ∨
    (t.free_fds = [] ∧ t.next_vfd ≠ INT_MAX ∧ v = t.next_vfd ∧
      t' = { t with entries := insertEntry t.entries t.next_vfd e,
                    next_vfd := t.next_vfd + 1 }) := by
  rw [FdTable.allocate] at h
  cases hpop : popMin t.free_fds with
  | some p =>
    obtain ⟨m, rest⟩ := p
    rw [hpop] at h
    simp only [Option.some.injEq, Prod.mk.injEq] at h
    obtain ⟨rfl, rfl⟩ := h
    exact Or.inl ⟨rest, rfl, rfl⟩
  | none =>
    rw [hpop] at h
    have hfree : t.free_fds = [] := (popMin_eq_none_iff _).mp hpop
    by_cases hmax : t.next_vfd = INT_MAX
    · rw [if_pos hmax] at h
      cases hf : findFree t.entries 3 (INT_MAX - 3).toNat with
      | none => rw [hf] at h; simp at h
      | some w =>
        rw [hf] at h
        simp only [Option.some.injEq, Prod.mk.injEq] at h
        obtain ⟨rfl, rfl⟩ := h
        exact Or.inr (Or.inl ⟨hfree, hmax, rfl, rfl⟩)
    · rw [if_neg hmax] at h
      simp only [Option.some.injEq, Prod.mk.injEq] at h
      obtain ⟨rfl, rfl⟩ := h
      exact Or.inr (Or.inr ⟨hfree, hmax, rfl, rfl⟩)

theorem allocate_min_cases (t : FdTable) (m : Int) (e : FdEntry) (v : Int)
    (t' : FdTable) (h : t.allocate_min m e = some (v, t')) :
    findFree t.entries m (INT_MAX - m).toNat = some v ∧
    t' = { entries := insertEntry t.entries v e,
           next_vfd := if t.next_vfd ≤ v then wrap32 (v + 1) else t.next_vfd,
           free_fds := removeAllFree
             (if t.next_vfd ≤ v then
                repopGaps t.entries t.next_vfd (v - t.next_vfd).toNat t.free_fds
              else t.free_fds) v } := by
  rw [FdTable.allocate_min] at h
  cases hf : findFree t.entries m (INT_MAX - m).toNat with
  | none => rw [hf] at h; simp at h
  | some w =>
    rw [hf] at h
    simp only [Option.some.injEq, Prod.mk.injEq] at h
    obtain ⟨rfl, rfl⟩ := h
    exact ⟨rfl, rfl⟩

theorem allocate_at_eq (t : FdTable) (vfd : Int) (e : FdEntry) :
    t.allocate_at vfd e =
      (lookupEntry t.entries vfd,
       { entries := insertEntry t.entries vfd e,
         next_vfd := if t.next_vfd ≤ vfd then wrap32 (vfd + 1) else t.next_vfd,
         free_fds := if t.next_vfd ≤ vfd then
             repopGaps t.entries t.next_vfd (vfd - t.next_vfd).toNat
               (removeAllFree t.free_fds vfd)
           else removeAllFree t.free_fds vfd }) := rfl

theorem deallocate_cases (t : FdTable) (vfd : Int) (r : Option FdEntry)
    (t' : FdTable) (h : t.deallocate vfd = (r, t')) :
    (lookupEntry t.entries vfd = none ∧ r = none ∧ t' = t) ∨
    (∃ e, lookupEntry t.entries vfd = some e ∧ r = some e ∧
      t' = { entries := removeKey t.entries vfd,
             next_vfd := t.next_vfd,
             free_fds := if 3 ≤ vfd then vfd :: t.free_fds else t.free_fds }) := by
  rw [FdTable.deallocate] at h
  cases hl : lookupEntry t.entries vfd with
  | none =>
    rw [hl] at h
    simp only [Prod.mk.injEq] at h
    exact Or.inl ⟨rfl, h.1.symm, h.2.symm⟩
  | some e =>
    rw [hl] at h
    simp only [Prod.mk.injEq] at h
    exact Or.inr ⟨e, rfl, h.1.symm, h.2.symm⟩

/-! ### Preservation of the invariant by every operation -/

theorem TableInv_allocate (t : FdTable) (e : FdEntry) (v : Int) (t' : FdTable)
    (hI : TableInv t) (h : t.allocate e = some (v, t')) : TableInv t' := by
  obtain ⟨hnd, ⟨hn3, hnM⟩, hfnd, hfree, hkeys, hcomp⟩ := hI
  rcases allocate_cases t e v t' h with
    ⟨rest, hpop, rfl⟩ | ⟨hfe, hmax, hff, rfl⟩ | ⟨hfe, hmax, rfl, rfl⟩
  · obtain ⟨hm_mem, hm_min, hrest⟩ := popMin_spec _ _ _ hpop
    subst hrest
    obtain ⟨h3m, hmlt, hmabs⟩ := hfree v hm_mem
    refine ⟨keysNodup_insertEntry _ _ _ hnd, ⟨hn3, hnM⟩,
      nodup_removeOne _ _ hfnd, ?_, ?_, ?_⟩
    · intro f hf
      have hfl := mem_of_mem_removeOne _ _ _ hf
      obtain ⟨h3f, hflt, hfabs⟩ := hfree f hfl
      have hne : f ≠ v := ne_of_mem_removeOne_of_nodup _ _ _ hfnd hf hm_mem
      refine ⟨h3f, hflt, ?_⟩
      rw [containsKey_false_iff, containsKey_insertEntry]
      rintro (rfl | hc)
      · exact hne rfl
      · rw [containsKey_false_iff] at hfabs
        exact hfabs hc
    · intro k h3k hk
      rw [containsKey_insertEntry] at hk
      rcases hk with rfl | hk
      · exact hmlt
      · exact hkeys k h3k hk
    · intro u h3u hult
      rcases hcomp u h3u hult with hc | hm
      · exact Or.inl ((containsKey_insertEntry _ _ _ _).mpr (Or.inr hc))
      · by_cases huv : u = v
        · subst huv
          exact Or.inl ((containsKey_insertEntry _ _ _ _).mpr (Or.inl rfl))
        · exact Or.inr (mem_removeOne_of_ne _ _ _ hm huv)
  · obtain ⟨h3v, hvM, hvabs, -⟩ := findFree_scan_spec _ _ _ hff
    rcases hcomp v h3v (by rw [hmax]; exact hvM) with hc | hm
    · rw [containsKey_false_iff] at hvabs
      exact absurd hc hvabs
    · rw [hfe] at hm
      simp at hm
  · have hnextlt : t.next_vfd < INT_MAX := lt_of_le_of_ne hnM hmax
    refine ⟨keysNodup_insertEntry _ _ _ hnd,
      ⟨show (3 : Int) ≤ t.next_vfd + 1 by omega,
       show t.next_vfd + 1 ≤ INT_MAX by omega⟩, hfnd, ?_, ?_, ?_⟩
    · intro f hf
      rw [hfe] at hf
      simp at hf
    · intro k h3k hk
      rw [containsKey_insertEntry] at hk
      rcases hk with rfl | hk
      · show t.next_vfd < t.next_vfd + 1
        omega
      · have := hkeys k h3k hk
        show k < t.next_vfd + 1
        omega
    · intro u h3u hult
      by_cases huv : u = t.next_vfd
      · subst huv
        exact Or.inl ((containsKey_insertEntry _ _ _ _).mpr (Or.inl rfl))
      · have hult' : u < t.next_vfd + 1 := hult
        have hu' : u < t.next_vfd := by omega
        rcases hcomp u h3u hu' with hc | hm
        · exact Or.inl ((containsKey_insertEntry _ _ _ _).mpr (Or.inr hc))
        · rw [hfe] at hm
          simp at hm

theorem TableInv_allocate_min (t : FdTable) (m : Int) (e : FdEntry) (v : Int)
    (t' : FdTable) (hI : TableInv t) (h : t.allocate_min m e = some (v, t')) :
    TableInv t' := by
  obtain ⟨hnd, ⟨hn3, hnM⟩, hfnd, hfree, hkeys, hcomp⟩ := hI
  obtain ⟨hff, rfl⟩ := allocate_min_cases t m e v t' h
  obtain ⟨hmv, hvM, hvabs, hmin⟩ := findFree_scan_spec _ _ _ hff
  by_cases hle : t.next_vfd ≤ v
  · have hcast : (((v - t.next_vfd).toNat : Int)) = v - t.next_vfd :=
      toNat_coe_of_le _ _ hle
    have hw : wrap32 (v + 1) = v + 1 := by
      rw [INT_MAX_eq] at hvM
      exact wrap32_eq_self _ (by omega) (by omega)
    have hmemG : ∀ g, g ∈ repopGaps t.entries t.next_vfd (v - t.next_vfd).toNat t.free_fds ↔
        g ∈ t.free_fds ∨
          (3 ≤ g ∧ t.next_vfd ≤ g ∧ g < v ∧ containsKey t.entries g = false) := by
      intro g
      rw [mem_repopGaps]
      rw [hcast]
      constructor
      · rintro (hg | ⟨h1, h2, h3, h4⟩)
        · exact Or.inl hg
        · exact Or.inr ⟨h1, h2, by omega, h4⟩
      · rintro (hg | ⟨h1, h2, h3, h4⟩)
        · exact Or.inl hg
        · exact Or.inr ⟨h1, h2, by omega, h4⟩
    have hndG : (repopGaps t.entries t.next_vfd (v - t.next_vfd).toNat t.free_fds).Nodup :=
      (repopGaps_nodup_and_lt t.entries _ _ _ hfnd
        (fun x hx => (hfree x hx).2.1)).1
    simp only [TableInv, if_pos hle, hw]
    refine ⟨keysNodup_insertEntry _ _ _ hnd, ⟨by omega, by omega⟩,
      nodup_removeAllFree _ _ hndG, ?_, ?_, ?_⟩
    · intro f hf
      rw [mem_removeAllFree] at hf
      obtain ⟨hfG, hfne⟩ := hf
      rw [hmemG] at hfG
      have habs : containsKey t.entries f = false := by
        rcases hfG with hg | ⟨-, -, -, h4⟩
        · exact (hfree f hg).2.2
        · exact h4
      have hbnds : 3 ≤ f ∧ f < v + 1 := by
        rcases hfG with hg | ⟨h1, -, h3, -⟩
        · obtain ⟨ha, hb, -⟩ := hfree f hg
          omega
        · omega
      refine ⟨hbnds.1, hbnds.2, ?_⟩
      rw [containsKey_false_iff, containsKey_insertEntry]
      rintro (rfl | hc)
      · exact hfne rfl
      · rw [containsKey_false_iff] at habs
        exact habs hc
    · intro k h3k hk
      rw [containsKey_insertEntry] at hk
      rcases hk with rfl | hk
      · omega
      · have := hkeys k h3k hk
        omega
    · intro u h3u hult
      by_cases huv : u = v
      · subst huv
        exact Or.inl ((containsKey_insertEntry _ _ _ _).mpr (Or.inl rfl))
      · have hult' : u < v + 1 := hult
        have huv' : u < v := by omega
        by_cases hcu : containsKey t.entries u = true
        · exact Or.inl ((containsKey_insertEntry _ _ _ _).mpr (Or.inr hcu))
        · have hcuf : containsKey t.entries u = false :=
            (containsKey_false_iff _ _).mpr hcu
          refine Or.inr ?_
          rw [mem_removeAllFree, hmemG]
          by_cases hun : u < t.next_vfd
          · rcases hcomp u h3u hun with hc | hm
            · exact absurd hc hcu
            · exact ⟨Or.inl hm, huv⟩
          · exact ⟨Or.inr ⟨h3u, by omega, huv', hcuf⟩, huv⟩
  · have hvn : v < t.next_vfd := by omega
    simp only [TableInv, if_neg hle]
    refine ⟨keysNodup_insertEntry _ _ _ hnd, ⟨hn3, hnM⟩,
      nodup_removeAllFree _ _ hfnd, ?_, ?_, ?_⟩
    · intro f hf
      rw [mem_removeAllFree] at hf
      obtain ⟨hfl, hfne⟩ := hf
      obtain ⟨h3f, hflt, hfabs⟩ := hfree f hfl
      refine ⟨h3f, hflt, ?_⟩
      rw [containsKey_false_iff, containsKey_insertEntry]
      rintro (rfl | hc)
      · exact hfne rfl
      · rw [containsKey_false_iff] at hfabs
        exact hfabs hc
    · intro k h3k hk
      rw [containsKey_insertEntry] at hk
      rcases hk with rfl | hk
      · exact hvn
      · exact hkeys k h3k hk
    · intro u h3u hult
      rcases hcomp u h3u hult with hc | hm
      · exact Or.inl ((containsKey_insertEntry _ _ _ _).mpr (Or.inr hc))
      · by_cases huv : u = v
        · subst huv
          exact Or.inl ((containsKey_insertEntry _ _ _ _).mpr (Or.inl rfl))
        · refine Or.inr ?_
          rw [mem_removeAllFree]
          exact ⟨hm, huv⟩

theorem TableInv_allocate_at (t : FdTable) (vfd : Int) (e : FdEntry)
    (r : Option FdEntry) (t' : FdTable) (hI : TableInv t) (hvM : vfd < INT_MAX)
    (h : t.allocate_at vfd e = (r, t')) : TableInv t' := by
  obtain ⟨hnd, ⟨hn3, hnM⟩, hfnd, hfree, hkeys, hcomp⟩ := hI
  rw [allocate_at_eq] at h
  simp only [Prod.mk.injEq] at h
  obtain ⟨-, ht⟩ := h
  subst ht
  by_cases hle : t.next_vfd ≤ vfd
  · have hcast : (((vfd - t.next_vfd).toNat : Int)) = vfd - t.next_vfd :=
      toNat_coe_of_le _ _ hle
    have hw : wrap32 (vfd + 1) = vfd + 1 := by
      rw [INT_MAX_eq] at hvM
      exact wrap32_eq_self _ (by omega) (by omega)
    have hnd1 : (removeAllFree t.free_fds vfd).Nodup := nodup_removeAllFree _ _ hfnd
    have hmemG : ∀ g,
        g ∈ repopGaps t.entries t.next_vfd (vfd - t.next_vfd).toNat
              (removeAllFree t.free_fds vfd) ↔
          (g ∈ t.free_fds ∧ g ≠ vfd) ∨
            (3 ≤ g ∧ t.next_vfd ≤ g ∧ g < vfd ∧ containsKey t.entries g = false) := by
      intro g
      rw [mem_repopGaps, hcast, mem_removeAllFree]
      constructor
      · rintro (hg | ⟨h1, h2, h3, h4⟩)
        · exact Or.inl hg
        · exact Or.inr ⟨h1, h2, by omega, h4⟩
      · rintro (hg | ⟨h1, h2, h3, h4⟩)
        · exact Or.inl hg
        · exact Or.inr ⟨h1, h2, by omega, h4⟩
    have hndG : (repopGaps t.entries t.next_vfd (vfd - t.next_vfd).toNat
        (removeAllFree t.free_fds vfd)).Nodup :=
      (repopGaps_nodup_and_lt t.entries _ _ _ hnd1
        (fun x hx => (hfree x ((mem_removeAllFree _ _ _).mp hx).1).2.1)).1
    simp only [TableInv, if_pos hle, hw]
    refine ⟨keysNodup_insertEntry _ _ _ hnd, ⟨by omega, by omega⟩, hndG, ?_, ?_, ?_⟩
    · intro f hf
      rw [hmemG] at hf
      have hfne : f ≠ vfd := by
        rcases hf with ⟨-, hne⟩ | ⟨-, -, hlt, -⟩
        · exact hne
        · omega
      have habs : containsKey t.entries f = false := by
        rcases hf with ⟨hg, -⟩ | ⟨-, -, -, h4⟩
        · exact (hfree f hg).2.2
        · exact h4
      have hbnds : 3 ≤ f ∧ f < vfd + 1 := by
        rcases hf with ⟨hg, -⟩ | ⟨h1, -, h3, -⟩
        · obtain ⟨ha, hb, -⟩ := hfree f hg
          omega
        · omega
      refine ⟨hbnds.1, hbnds.2, ?_⟩
      rw [containsKey_false_iff, containsKey_insertEntry]
      rintro (rfl | hc)
      · exact hfne rfl
      · rw [containsKey_false_iff] at habs
        exact habs hc
    · intro k h3k hk
      rw [containsKey_insertEntry] at hk
      rcases hk with rfl | hk
      · omega
      · have := hkeys k h3k hk
        omega
    · intro u h3u hult
      by_cases huv : u = vfd
      · subst huv
        exact Or.inl ((containsKey_insertEntry _ _ _ _).mpr (Or.inl rfl))
      · have hult' : u < vfd + 1 := hult
        have huv' : u < vfd := by omega
        by_cases hcu : containsKey t.entries u = true
        · exact Or.inl ((containsKey_insertEntry _ _ _ _).mpr (Or.inr hcu))
        · have hcuf : containsKey t.entries u = false :=
            (containsKey_false_iff _ _).mpr hcu
          refine Or.inr ?_
          rw [hmemG]
          by_cases hun : u < t.next_vfd
          · rcases hcomp u h3u hun with hc | hm
            · exact absurd hc hcu
            · exact Or.inl ⟨hm, huv⟩
          · exact Or.inr ⟨h3u, by omega, huv', hcuf⟩
  · have hvn : vfd < t.next_vfd := by omega
    simp only [TableInv, if_neg hle]
    refine ⟨keysNodup_insertEntry _ _ _ hnd, ⟨hn3, hnM⟩,
      nodup_removeAllFree _ _ hfnd, ?_, ?_, ?_⟩
    · intro f hf
      rw [mem_removeAllFree] at hf
      obtain ⟨hfl, hfne⟩ := hf
      obtain ⟨h3f, hflt, hfabs⟩ := hfree f hfl
      refine ⟨h3f, hflt, ?_⟩
      rw [containsKey_false_iff, containsKey_insertEntry]
      rintro (rfl | hc)
      · exact hfne rfl
      · rw [containsKey_false_iff] at hfabs
        exact hfabs hc
    · intro k h3k hk
      rw [containsKey_insertEntry] at hk
      rcases hk with rfl | hk
      · exact hvn
      · exact hkeys k h3k hk
    · intro u h3u hult
      rcases hcomp u h3u hult with hc | hm
      · exact Or.inl ((containsKey_insertEntry _ _ _ _).mpr (Or.inr hc))
      · by_cases huv : u = vfd
        · subst huv
          exact Or.inl ((containsKey_insertEntry _ _ _ _).mpr (Or.inl rfl))
        · refine Or.inr ?_
          rw [mem_removeAllFree]
          exact ⟨hm, huv⟩

theorem TableInv_deallocate (t : FdTable) (vfd : Int) (r : Option FdEntry)
    (t' : FdTable) (hI : TableInv t) (h : t.deallocate vfd = (r, t')) :
    TableInv t' := by
  rcases deallocate_cases t vfd r t' h with ⟨-, -, rfl⟩ | ⟨e, hl, -, rfl⟩
  · exact hI
  · obtain ⟨hnd, ⟨hn3, hnM⟩, hfnd, hfree, hkeys, hcomp⟩ := hI
    have hcon : containsKey t.entries vfd = true := by
      simp [containsKey, hl]
    have hfne : ∀ f ∈ t.free_fds, f ≠ vfd := by
      intro f hf hEq
      subst hEq
      rw [(hfree f hf).2.2] at hcon
      exact absurd hcon (by simp)
    by_cases h3 : 3 ≤ vfd
    · simp only [TableInv, if_pos h3]
      refine ⟨keysNodup_removeKey _ _ hnd, ⟨hn3, hnM⟩, ?_, ?_, ?_, ?_⟩
      · rw [List.nodup_cons]
        exact ⟨fun hm => (hfne vfd hm) rfl, hfnd⟩
      · intro f hf
        rcases List.mem_cons.mp hf with rfl | hf'
        · refine ⟨h3, hkeys f h3 hcon, ?_⟩
          simp [containsKey, lookupEntry_removeKey_self t.entries f hnd]
        · obtain ⟨h3f, hflt, hfabs⟩ := hfree f hf'
          refine ⟨h3f, hflt, ?_⟩
          rw [containsKey_removeKey_ne t.entries vfd f (hfne f hf')]
          exact hfabs
      · intro k h3k hk
        exact hkeys k h3k (containsKey_removeKey_imp _ _ _ hnd hk)
      · intro u h3u hult
        rcases hcomp u h3u hult with hc | hm
        · by_cases huv : u = vfd
          · subst huv
            exact Or.inr (List.mem_cons_self _ _)
          · refine Or.inl ?_
            rwa [containsKey_removeKey_ne t.entries vfd u huv]
        · exact Or.inr (List.mem_cons_of_mem _ hm)
    · simp only [TableInv, if_neg h3]
      refine ⟨keysNodup_removeKey _ _ hnd, ⟨hn3, hnM⟩, hfnd, ?_, ?_, ?_⟩
      · intro f hf
        obtain ⟨h3f, hflt, hfabs⟩ := hfree f hf
        refine ⟨h3f, hflt, ?_⟩
        rw [containsKey_removeKey_ne t.entries vfd f (by omega)]
        exact hfabs
      · intro k h3k hk
        exact hkeys k h3k (containsKey_removeKey_imp _ _ _ hnd hk)
      · intro u h3u hult
        rcases hcomp u h3u hult with hc | hm
        · refine Or.inl ?_
          rwa [containsKey_removeKey_ne t.entries vfd u (by omega)]
        · exact Or.inr hm

theorem TableInv_duplicate (t : FdTable) (old : Int) (r : Option Int)
    (t' : FdTable) (hI : TableInv t) (h : t.duplicate old = some (r, t')) :
    TableInv t' := by
  rw [FdTable.duplicate] at h
  cases hg : t.get old with
  | none =>
    rw [hg] at h
    simp only [Option.some.injEq, Prod.mk.injEq] at h
    obtain ⟨-, rfl⟩ := h
    exact hI
  | some entry =>
    rw [hg] at h
    dsimp only at h
    cases ha : t.allocate entry with
    | none => rw [ha] at h; simp at h
    | some p =>
      obtain ⟨v, t''⟩ := p
      rw [ha] at h
      simp only [Option.some.injEq, Prod.mk.injEq] at h
      obtain ⟨-, rfl⟩ := h
      exact TableInv_allocate t entry v t'' hI ha

theorem TableInv_duplicate_at (t : FdTable) (old new_vfd : Int)
    (r : Option FdEntry) (t' : FdTable) (hI : TableInv t)
    (hvM : new_vfd < INT_MAX) (h : t.duplicate_at old new_vfd = (r, t')) :
    TableInv t' := by
  rw [FdTable.duplicate_at] at h
  cases hg : t.get old with
  | none =>
    rw [hg] at h
    simp only [Prod.mk.injEq] at h
    obtain ⟨-, rfl⟩ := h
    exact hI
  | some entry =>
    rw [hg] at h
    exact TableInv_allocate_at t new_vfd entry r t' hI hvM h

/-! ### Reachable states -/

theorem deep_clone_eq (t : FdTable) : t.deep_clone = t := rfl

/-- States reachable from `FdTable::new` by arbitrary public operations
(an operation that panics, i.e. returns `none`, produces no state). -/
inductive Reach : FdTable → Prop
  | new : Reach FdTable.new
  | allocate (t t' : FdTable) (e : FdEntry) (v : Int) :
      Reach t → t.allocate e = some (v, t') → Reach t'
  | allocate_min (t t' : FdTable) (m : Int) (e : FdEntry) (v : Int) :
      Reach t → t.allocate_min m e = some (v, t') → Reach t'
  | allocate_at (t t' : FdTable) (vfd : Int) (e : FdEntry) (r : Option FdEntry) :
      Reach t → t.allocate_at vfd e = (r, t') → Reach t'
  | deallocate (t t' : FdTable) (vfd : Int) (r : Option FdEntry) :
      Reach t → t.deallocate vfd = (r, t') → Reach t'
  | duplicate (t t' : FdTable) (old : Int) (r : Option Int) :
      Reach t → t.duplicate old = some (r, t') → Reach t'
  | duplicate_at (t t' : FdTable) (old n : Int) (r : Option FdEntry) :
      Reach t → t.duplicate_at old n = (r, t') → Reach t'
  | deep_clone (t : FdTable) : Reach t → Reach t.deep_clone

/-- States reachable when `allocate_at` / `duplicate_at` are never invoked
with target VFD `i32::MAX` (the only call that overflows `next_vfd`). -/
inductive ReachM : FdTable → Prop
  | new : ReachM FdTable.new
  | allocate (t t' : FdTable) (e : FdEntry) (v : Int) :
      ReachM t → t.allocate e = some (v, t') → ReachM t'
  | allocate_min (t t' : FdTable) (m : Int) (e : FdEntry) (v : Int) :
      ReachM t → t.allocate_min m e = some (v, t') → ReachM t'
  | allocate_at (t t' : FdTable) (vfd : Int) (e : FdEntry) (r : Option FdEntry) :
      ReachM t → vfd < INT_MAX → t.allocate_at vfd e = (r, t') → ReachM t'
  | deallocate (t t' : FdTable) (vfd : Int) (r : Option FdEntry) :
      ReachM t → t.deallocate vfd = (r, t') → ReachM t'
  | duplicate (t t' : FdTable) (old : Int) (r : Option Int) :
      ReachM t → t.duplicate old = some (r, t') → ReachM t'
  | duplicate_at (t t' : FdTable) (old n : Int) (r : Option FdEntry) :
      ReachM t → n < INT_MAX → t.duplicate_at old n = (r, t') → ReachM t'
  | deep_clone (t : FdTable) : ReachM t → ReachM t.deep_clone

/-- States reachable when, additionally, `deallocate`, `allocate_at` and
`duplicate_at` are never aimed at the standard FDs 0, 1, 2. -/
inductive ReachStd : FdTable → Prop
  | new : ReachStd FdTable.new
  | allocate (t t' : FdTable) (e : FdEntry) (v : Int) :
      ReachStd t → t.allocate e = some (v, t') → ReachStd t'
  | allocate_min (t t' : FdTable) (m : Int) (e : FdEntry) (v : Int) :
      ReachStd t → t.allocate_min m e = some (v, t') → ReachStd t'
  | allocate_at (t t' : FdTable) (vfd : Int) (e : FdEntry) (r : Option FdEntry) :
      ReachStd t → vfd < 0 ∨ 3 ≤ vfd → vfd < INT_MAX →
      t.allocate_at vfd e = (r, t') → ReachStd t'
  | deallocate (t t' : FdTable) (vfd : Int) (r : Option FdEntry) :
      ReachStd t → vfd < 0 ∨ 3 ≤ vfd → t.deallocate vfd = (r, t') → ReachStd t'
  | duplicate (t t' : FdTable) (old : Int) (r : Option Int) :
      ReachStd t → t.duplicate old = some (r, t') → ReachStd t'
  | duplicate_at (t t' : FdTable) (old n : Int) (r : Option FdEntry) :
      ReachStd t → n < 0 ∨ 3 ≤ n → n < INT_MAX →
      t.duplicate_at old n = (r, t') → ReachStd t'
  | deep_clone (t : FdTable) : ReachStd t → ReachStd t.deep_clone

theorem reachM_TableInv (t : FdTable) (h : ReachM t) : TableInv t := by
  induction h with
  | new => exact TableInv_new
  | allocate t t' e v _ heq ih => exact TableInv_allocate t e v t' ih heq
  | allocate_min t t' m e v _ heq ih => exact TableInv_allocate_min t m e v t' ih heq
  | allocate_at t t' vfd e r _ hv heq ih => exact TableInv_allocate_at t vfd e r t' ih hv heq
  | deallocate t t' vfd r _ heq ih => exact TableInv_deallocate t vfd r t' ih heq
  | duplicate t t' old r _ heq ih => exact TableInv_duplicate t old r t' ih heq
  | duplicate_at t t' old n r _ hv heq ih => exact TableInv_duplicate_at t old n r t' ih hv heq
  | deep_clone t _ ih => exact ih

theorem reachStd_reachM (t : FdTable) (h : ReachStd t) : ReachM t := by
  induction h with
  | new => exact ReachM.new
  | allocate t t' e v _ heq ih => exact ReachM.allocate t t' e v ih heq
  | allocate_min t t' m e v _ heq ih => exact ReachM.allocate_min t t' m e v ih heq
  | allocate_at t t' vfd e r _ _ hvM heq ih => exact ReachM.allocate_at t t' vfd e r ih hvM heq
  | deallocate t t' vfd r _ _ heq ih => exact ReachM.deallocate t t' vfd r ih heq
  | duplicate t t' old r _ heq ih => exact ReachM.duplicate t t' old r ih heq
  | duplicate_at t t' old n r _ _ hvM heq ih => exact ReachM.duplicate_at t t' old n r ih hvM heq
  | deep_clone t _ ih => exact ReachM.deep_clone t ih

/-! ### The standard-FD property -/

/-- Keys 0, 1, 2 map to passthrough entries with `kernel_fd == key`,
`flags == 0`, `path == none`. -/
def StdOk (t : FdTable) : Prop :=
  lookupEntry t.entries 0 = some (.passthrough 0 0 none) ∧
  lookupEntry t.entries 1 = some (.passthrough 1 0 none) ∧
  lookupEntry t.entries 2 = some (.passthrough 2 0 none)

theorem StdOk_new : StdOk FdTable.new := by
  refine ⟨?_, ?_, ?_⟩ <;> decide

theorem StdOk_contains (t : FdTable) (hs : StdOk t) :
    containsKey t.entries 0 = true ∧ containsKey t.entries 1 = true ∧
      containsKey t.entries 2 = true := by
  obtain ⟨h0, h1, h2⟩ := hs
  simp [containsKey, h0, h1, h2]

theorem StdOk_of_insert (t t' : FdTable) (v : Int) (e : FdEntry)
    (hs : StdOk t) (hv : v < 0 ∨ 3 ≤ v)
    (he : t'.entries = insertEntry t.entries v e) : StdOk t' := by
  obtain ⟨h0, h1, h2⟩ := hs
  refine ⟨?_, ?_, ?_⟩ <;>
    rw [he, lookupEntry_insertEntry_ne _ _ _ _ (by omega)] <;> assumption

theorem StdOk_of_remove (t t' : FdTable) (v : Int)
    (hs : StdOk t) (hv : v < 0 ∨ 3 ≤ v)
    (he : t'.entries = removeKey t.entries v) : StdOk t' := by
  obtain ⟨h0, h1, h2⟩ := hs
  refine ⟨?_, ?_, ?_⟩ <;>
    rw [he, lookupEntry_removeKey_ne _ _ _ (by omega)] <;> assumption

theorem allocate_vfd_ge (t : FdTable) (e : FdEntry) (v : Int) (t' : FdTable)
    (hI : TableInv t) (h : t.allocate e = some (v, t')) :
    3 ≤ v ∧ t'.entries = insertEntry t.entries v e := by
  obtain ⟨hnd, ⟨hn3, hnM⟩, hfnd, hfree, hkeys, hcomp⟩ := hI
  rcases allocate_cases t e v t' h with
    ⟨rest, hpop, rfl⟩ | ⟨hfe, hmax, hff, rfl⟩ | ⟨hfe, hmax, rfl, rfl⟩
  · obtain ⟨hm, -, -⟩ := popMin_spec _ _ _ hpop
    exact ⟨(hfree v hm).1, rfl⟩
  · obtain ⟨h3, -, -, -⟩ := findFree_scan_spec _ _ _ hff
    exact ⟨h3, rfl⟩
  · exact ⟨hn3, rfl⟩

theorem allocate_min_absent (t : FdTable) (m : Int) (e : FdEntry) (v : Int)
    (t' : FdTable) (h : t.allocate_min m e = some (v, t')) :
    containsKey t.entries v = false ∧ t'.entries = insertEntry t.entries v e := by
  obtain ⟨hff, rfl⟩ := allocate_min_cases t m e v t' h
  obtain ⟨-, -, habs, -⟩ := findFree_scan_spec _ _ _ hff
  exact ⟨habs, rfl⟩

theorem reachStd_StdOk (t : FdTable) (h : ReachStd t) : StdOk t := by
  induction h with
  | new => exact StdOk_new
  | allocate t t' e v ht heq ih =>
    have hI := reachM_TableInv t (reachStd_reachM t ht)
    obtain ⟨h3, he⟩ := allocate_vfd_ge t e v t' hI heq
    exact StdOk_of_insert t t' v e ih (Or.inr h3) he
  | allocate_min t t' m e v ht heq ih =>
    obtain ⟨habs, he⟩ := allocate_min_absent t m e v t' heq
    obtain ⟨hc0, hc1, hc2⟩ := StdOk_contains t ih
    have hv : v < 0 ∨ 3 ≤ v := by
      have h0 : v ≠ 0 := fun hEq => by rw [hEq, hc0] at habs; exact absurd habs (by simp)
      have h1 : v ≠ 1 := fun hEq => by rw [hEq, hc1] at habs; exact absurd habs (by simp)
      have h2 : v ≠ 2 := fun hEq => by rw [hEq, hc2] at habs; exact absurd habs (by simp)
      omega
    exact StdOk_of_insert t t' v e ih hv he
  | allocate_at t t' vfd e r ht hv hvM heq ih =>
    rw [allocate_at_eq] at heq
    simp only [Prod.mk.injEq] at heq
    exact StdOk_of_insert t t' vfd e ih hv (by rw [← heq.2])
  | deallocate t t' vfd r ht hv heq ih =>
    rcases deallocate_cases t vfd r t' heq with ⟨-, -, rfl⟩ | ⟨e, hl, -, rfl⟩
    · exact ih
    · exact StdOk_of_remove t _ vfd ih hv rfl
  | duplicate t t' old r ht heq ih =>
    rw [FdTable.duplicate] at heq
    cases hg : t.get old with
    | none =>
      rw [hg] at heq
      simp only [Option.some.injEq, Prod.mk.injEq] at heq
      rw [← heq.2]
      exact ih
    | some entry =>
      rw [hg] at heq
      dsimp only at heq
      cases ha : t.allocate entry with
      | none => rw [ha] at heq; simp at heq
      | some p =>
        obtain ⟨v, t''⟩ := p
        rw [ha] at heq
        simp only [Option.some.injEq, Prod.mk.injEq] at heq
        have hI := reachM_TableInv t (reachStd_reachM t ht)
        obtain ⟨h3, he⟩ := allocate_vfd_ge t entry v t'' hI ha
        exact StdOk_of_insert t t' v entry ih (Or.inr h3) (by rw [← heq.2, he])
  | duplicate_at t t' old n r ht hv hvM heq ih =>
    rw [FdTable.duplicate_at] at heq
    cases hg : t.get old with
    | none =>
      rw [hg] at heq
      simp only [Prod.mk.injEq] at heq
      rw [← heq.2]
      exact ih
    | some entry =>
      rw [hg] at heq
      dsimp only at heq
      rw [allocate_at_eq] at heq
      simp only [Prod.mk.injEq] at heq
      exact StdOk_of_insert t t' n entry ih hv (by rw [← heq.2])
  | deep_clone t _ ih => exact ih

/-! ### Claim C7 -/

/-- C7: `translate(vfd)` returns `some k` iff the mapping holds an entry
at `vfd` of passthrough shape with `kernel_fd = k`; it returns `none`
both when the entry at `vfd` is virtual and when no entry exists. -/
theorem translate_spec_c7 (t : FdTable) (vfd : Int) :
    (∀ k, t.translate vfd = some k ↔
      ∃ fl p, lookupEntry t.entries vfd = some (.passthrough k fl p)) ∧
    (t.translate vfd = none ↔
      (lookupEntry t.entries vfd = none ∨
        ∃ fo fl p, lookupEntry t.entries vfd = some (.virt fo fl p))) := by
  cases hl : lookupEntry t.entries vfd with
  | none => simp [FdTable.translate, hl]
  | some e =>
    cases e with
    | passthrough k fl p =>
      constructor
      · intro k'
        simp only [FdTable.translate, hl, Option.some_bind, FdEntry.kernel_fd,
          Option.some.injEq, FdEntry.passthrough.injEq]
        constructor
        · rintro rfl
          exact ⟨fl, p, rfl, rfl, rfl⟩
        · rintro ⟨fl', p', hk, -, -⟩
          exact hk
      · simp [FdTable.translate, hl, FdEntry.kernel_fd]
    | virt fo fl p =>
      constructor
      · intro k'
        simp [FdTable.translate, hl, FdEntry.kernel_fd]
      · simp only [FdTable.translate, hl, Option.some_bind, FdEntry.kernel_fd]
        constructor
        · intro _
          exact Or.inr ⟨fo, fl, p, rfl⟩
        · intro _
          trivial

/-! ### Claim C8 -/

/-- C8: if `old` is absent, `duplicate` and `duplicate_at` return the
absent result and leave the table unchanged; if `old` holds entry `e`,
`duplicate(old)` returns exactly what `allocate(e)` yields and
`duplicate_at(old, new)` returns exactly what `allocate_at(new, e)`
yields (a value copy of `e` is installed). -/
theorem duplicate_spec_c8 (t : FdTable) (old new_vfd : Int) :
    (t.get old = none →
      t.duplicate old = some (none, t) ∧ t.duplicate_at old new_vfd = (none, t)) ∧
    (∀ e, t.get old = some e →
      t.duplicate old = (t.allocate e).map (fun p => (some p.1, p.2)) ∧
      t.duplicate_at old new_vfd = t.allocate_at new_vfd e) := by
  constructor
  · intro hg
    rw [FdTable.duplicate, FdTable.duplicate_at, hg]
    exact ⟨rfl, rfl⟩
  · intro e hg
    rw [FdTable.duplicate, FdTable.duplicate_at, hg]
    dsimp only
    refine ⟨?_, rfl⟩
    cases ha : t.allocate e with
    | none => rfl
    | some p => obtain ⟨v, t'⟩ := p; rfl

/-- C8 witness: concrete instantiation at `new` with `old = 1`. -/
theorem duplicate_spec_c8_witness :
    FdTable.new.duplicate 1 =
      (FdTable.new.allocate (.passthrough 1 0 none)).map (fun p => (some p.1, p.2)) :=
  ((duplicate_spec_c8 FdTable.new 1 7).2 (.passthrough 1 0 none) (by decide)).1

/-! ### Claim C4 -/

/-- C4 counterexample: `deallocate(0)` is a public operation after which
key 0 is no longer present in the mapping. -/
theorem std_fds_dealloc_cex_c4 :
    lookupEntry ((FdTable.new.deallocate 0).2).entries 0 = none := by decide

/-- C4 amended: keys 0, 1, 2 are present as passthroughs with
`kernel_fd = key`, `flags = 0`, `path = none` after every public
operation, provided `deallocate`, `allocate_at` and `duplicate_at` are
never aimed at VFDs 0, 1, 2 (and `allocate_at`/`duplicate_at` never at
`i32::MAX`). -/
theorem std_fds_spec_c4 (t : FdTable) (h : ReachStd t) :
    lookupEntry t.entries 0 = some (.passthrough 0 0 none) ∧
    lookupEntry t.entries 1 = some (.passthrough 1 0 none) ∧
    lookupEntry t.entries 2 = some (.passthrough 2 0 none) :=
  reachStd_StdOk t h

/-- C4 witness: the freshly constructed table. -/
theorem std_fds_spec_c4_witness :
    lookupEntry FdTable.new.entries 0 = some (.passthrough 0 0 none) ∧
    lookupEntry FdTable.new.entries 1 = some (.passthrough 1 0 none) ∧
    lookupEntry FdTable.new.entries 2 = some (.passthrough 2 0 none) :=
  std_fds_spec_c4 FdTable.new ReachStd.new

/-! ### Claim C3 -/

/-- C3 counterexample: `allocate_min(-5, e)` on the fresh table returns
`-5` and installs the entry there, although the smallest free VFD
`≥ max(3, -5) = 3` is `3` (which is absent). -/
theorem allocate_min_floor_cex_c3 :
    (FdTable.new.allocate_min (-5) (.passthrough 100 0 none)).map Prod.fst =
      some (-5) ∧
    containsKey FdTable.new.entries 3 = false ∧ ((-5 : Int) ≠ 3) :=
  ⟨by decide, by decide, by decide⟩

/-- C3 amended: `allocate_min(min, e)` returns the smallest VFD `≥ min`
itself (no flooring at 3) that is absent from the mapping and installs
`e` there; whenever key 2 is present — in particular in every state
where the standard FDs are intact — `allocate_min(2, e)` coincides with
`allocate_min(3, e)`. -/
theorem allocate_min_spec_c3 (t : FdTable) (m : Int) (e : FdEntry) :
    (∀ v t', t.allocate_min m e = some (v, t') →
      m ≤ v ∧ containsKey t.entries v = false ∧
        (∀ u, m ≤ u → u < v → containsKey t.entries u = true) ∧
        lookupEntry t'.entries v = some e) ∧
    (containsKey t.entries 2 = true → t.allocate_min 2 e = t.allocate_min 3 e) := by
  constructor
  · intro v t' h
    obtain ⟨hff, rfl⟩ := allocate_min_cases t m e v t' h
    obtain ⟨h1, h2, h3, h4⟩ := findFree_scan_spec _ _ _ hff
    exact ⟨h1, h3, h4, lookupEntry_insertEntry_self _ _ _⟩
  · intro h2
    have hfuel : (INT_MAX - 2).toNat = (INT_MAX - 3).toNat + 1 := by decide
    rw [FdTable.allocate_min, FdTable.allocate_min, hfuel]
    have hstep : findFree t.entries 2 ((INT_MAX - 3).toNat + 1) =
        findFree t.entries 3 (INT_MAX - 3).toNat := by
      rw [findFree, if_pos h2]
      norm_num
    rw [hstep]

/-- C3 witness: at the fresh table, `allocate_min 7` returns 7 and
installs the entry, and `allocate_min 2 = allocate_min 3`. -/
theorem allocate_min_spec_c3_witness :
    ((7 : Int) ≤ 7 ∧ containsKey FdTable.new.entries 7 = false ∧
      (∀ u, (7 : Int) ≤ u → u < 7 → containsKey FdTable.new.entries u = true) ∧
      lookupEntry
        (⟨[(0, .passthrough 0 0 none), (1, .passthrough 1 0 none),
           (2, .passthrough 2 0 none), (7, .passthrough 42 0 none)], 8,
          [6, 5, 4, 3]⟩ : FdTable).entries 7 = some (.passthrough 42 0 none)) ∧
    FdTable.new.allocate_min 2 (.passthrough 42 0 none) =
      FdTable.new.allocate_min 3 (.passthrough 42 0 none) :=
  ⟨(allocate_min_spec_c3 FdTable.new 7 (.passthrough 42 0 none)).1 7
      ⟨[(0, .passthrough 0 0 none), (1, .passthrough 1 0 none),
        (2, .passthrough 2 0 none), (7, .passthrough 42 0 none)], 8,
       [6, 5, 4, 3]⟩ (by decide),
   (allocate_min_spec_c3 FdTable.new 2 (.passthrough 42 0 none)).2 (by decide)⟩

/-! ### Claim C5 -/

/-- Intermediate state for the C5 counterexample:
`new → allocate(P 100)=3`. -/
def c5T1 : FdTable :=
  ⟨[(0, .passthrough 0 0 none), (1, .passthrough 1 0 none),
    (2, .passthrough 2 0 none), (3, .passthrough 100 0 none)], 4, []⟩

/-- `c5T1 → allocate(P 101)=4`. -/
def c5T2 : FdTable :=
  ⟨[(0, .passthrough 0 0 none), (1, .passthrough 1 0 none),
    (2, .passthrough 2 0 none), (3, .passthrough 100 0 none),
    (4, .passthrough 101 0 none)], 5, []⟩

/-- `c5T2 → allocate(P 102)=5`. -/
def c5T3 : FdTable :=
  ⟨[(0, .passthrough 0 0 none), (1, .passthrough 1 0 none),
    (2, .passthrough 2 0 none), (3, .passthrough 100 0 none),
    (4, .passthrough 101 0 none), (5, .passthrough 102 0 none)], 6, []⟩

/-- `c5T3 → deallocate(3)`: VFD 3 is free, 5 is still mapped. -/
def c5T4 : FdTable :=
  ⟨[(0, .passthrough 0 0 none), (1, .passthrough 1 0 none),
    (2, .passthrough 2 0 none), (4, .passthrough 101 0 none),
    (5, .passthrough 102 0 none)], 6, [3]⟩

/-- C5 counterexample: at the reachable state `c5T4`, VFD 5 is in the
mapping and `5 ≥ 3`, yet after `deallocate(5)` the very next `allocate()`
returns 3 (the smaller previously freed VFD), not 5. -/
theorem dealloc_realloc_cex_c5 :
    Reach c5T4 ∧ (3 : Int) ≤ 5 ∧ containsKey c5T4.entries 5 = true ∧
    ((c5T4.deallocate 5).2.allocate (.passthrough 103 0 none)).map Prod.fst =
      some 3 ∧ (3 : Int) ≠ 5 := by
  refine ⟨?_, by decide, by decide, by decide, by decide⟩
  refine Reach.deallocate c5T3 c5T4 3 (some (.passthrough 100 0 none)) ?_ (by decide)
  refine Reach.allocate c5T2 c5T3 (.passthrough 102 0 none) 5 ?_ (by decide)
  refine Reach.allocate c5T1 c5T2 (.passthrough 101 0 none) 4 ?_ (by decide)
  exact Reach.allocate FdTable.new c5T1 (.passthrough 100 0 none) 3 Reach.new (by decide)

theorem listMin_cons_of_le (v : Int) (l : List Int) (h : ∀ f ∈ l, v ≤ f) :
    listMin (v :: l) = some v := by
  simp only [listMin]
  cases hl : listMin l with
  | none => rfl
  | some m =>
    have := h m (listMin_mem l m hl)
    simp [min_eq_left this]

/-- C5 amended: after `deallocate(v)` with `v ≥ 3` currently in the
mapping, the very next `allocate()` returns `v`, provided no
`allocate_min` or `allocate_at` intervenes *and no VFD smaller than `v`
is in the free set at the moment of the deallocate*. -/
theorem dealloc_then_alloc_c5 (t : FdTable) (v : Int) (e : FdEntry)
    (hv3 : 3 ≤ v) (hmem : containsKey t.entries v = true)
    (hmin : ∀ f ∈ t.free_fds, v ≤ f) :
    ((t.deallocate v).2.allocate e).map Prod.fst = some v := by
  cases hl : lookupEntry t.entries v with
  | none => rw [containsKey, hl] at hmem; simp at hmem
  | some e' =>
    rw [FdTable.deallocate, hl]
    dsimp only
    rw [if_pos hv3]
    rw [FdTable.allocate]
    dsimp only
    rw [popMin, listMin_cons_of_le v t.free_fds hmin]
    rfl

/-- C5 witness: with an empty free set, deallocating 3 and allocating
again returns 3. -/
theorem dealloc_then_alloc_c5_witness :
    ((c5T1.deallocate 3).2.allocate (.passthrough 200 0 none)).map Prod.fst =
      some 3 :=
  dealloc_then_alloc_c5 c5T1 3 (.passthrough 200 0 none) (by decide) (by decide)
    (by decide)

/-! ### Claim C10 -/

/-- Run `n` consecutive `allocate` calls, collecting the returned VFDs. -/
def allocateRun : FdTable → Nat → Option (List Int × FdTable)
  | t, 0 => some ([], t)
  | t, n + 1 =>
    match t.allocate (.passthrough 300 0 none) with
    | none => none
    | some (v, t') =>
      match allocateRun t' n with
      | none => none
      | some (vs, t'') => some (v :: vs, t'')

/-- The concrete scenario of C2:
`new → allocate(P 100) = 3; allocate_at(10, P 200)` returns the absent
result; the next seven `allocate()` calls return 4, 5, 6, 7, 8, 9, 11. -/
def c2Scenario : Bool :=
  match FdTable.new.allocate (.passthrough 100 0 none) with
  | none => false
  | some (v1, t1) =>
    let p := t1.allocate_at 10 (.passthrough 200 0 none)
    match allocateRun p.2 7 with
    | none => false
    | some (vs, _) =>
      decide (v1 = 3) && decide (p.1 = none) &&
        decide (vs = [4, 5, 6, 7, 8, 9, 11])

/-- C2 counterexample: calling `allocate_at(v, e)` with
`v = i32::MAX ≥ next_vfd` does not set `next_vfd` to `v + 1`; the i32
addition wraps and `next_vfd` becomes `-2^31`. -/
theorem allocate_at_next_wrap_cex_c2 :
    FdTable.new.next_vfd ≤ INT_MAX ∧
    ((FdTable.new.allocate_at INT_MAX (.passthrough 200 0 none)).2).next_vfd =
      -2147483648 ∧
    (-2147483648 : Int) ≠ INT_MAX + 1 := by
  refine ⟨by decide, ?_, by decide⟩
  simp [FdTable.allocate_at, FdTable.new, INT_MAX, wrap32]

/-- C2 amended: when `allocate_at(v, e)` is called in a state with
`next_vfd ≤ v`, the resulting free set consists of the old free set
minus `v` together with every `g ∈ [next_vfd, v)` with `g ≥ 3` that is
not in the mapping (the `g ≥ 3` proviso only matters once `next_vfd`
has wrapped below 3), and `next_vfd` becomes the 32-bit wrap of `v + 1`
(equal to `v + 1` whenever `v < i32::MAX`); the concrete scenario
3, none, 4, 5, 6, 7, 8, 9, 11 holds as stated. -/
theorem allocate_at_gap_c2 (t : FdTable) (v : Int) (e : FdEntry)
    (hle : t.next_vfd ≤ v) :
    (((t.allocate_at v e).2.next_vfd = wrap32 (v + 1)) ∧
     (∀ g, g ∈ (t.allocate_at v e).2.free_fds ↔
        (g ∈ t.free_fds ∧ g ≠ v) ∨
          (3 ≤ g ∧ t.next_vfd ≤ g ∧ g < v ∧ containsKey t.entries g = false))) ∧
    c2Scenario = true := by
  refine ⟨⟨?_, ?_⟩, by decide⟩
  · rw [allocate_at_eq]
    dsimp only
    rw [if_pos hle]
  · intro g
    rw [allocate_at_eq]
    dsimp only
    rw [if_pos hle]
    rw [mem_repopGaps, toNat_coe_of_le _ _ hle, mem_removeAllFree]
    constructor
    · rintro (hg | ⟨h1, h2, h3, h4⟩)
      · exact Or.inl hg
      · exact Or.inr ⟨h1, h2, by omega, h4⟩
    · rintro (hg | ⟨h1, h2, h3, h4⟩)
      · exact Or.inl hg
      · exact Or.inr ⟨h1, h2, by omega, h4⟩

/-- C2 witness: concrete instantiation at the fresh table with `v = 5`,
plus the scenario. -/
theorem allocate_at_gap_c2_witness :
    ((FdTable.new.allocate_at 5 (.passthrough 200 0 none)).2.next_vfd =
      wrap32 (5 + 1)) ∧ c2Scenario = true :=
  ⟨(allocate_at_gap_c2 FdTable.new 5 (.passthrough 200 0 none) (by decide)).1.1,
   (allocate_at_gap_c2 FdTable.new 5 (.passthrough 200 0 none) (by decide)).2⟩

/-! ### Claim C9 -/

/-- C9: the claimed invariant `next_vfd ≥ 3` is broken by the public
call `allocate_at(i32::MAX, e)` on the fresh table: the write
`next_vfd = vfd + 1` wraps (mod 2^32) to `-2^31`, and no exhaustion
fallback is involved — the fallback scan in `allocate` only triggers on
`next_vfd == i32::MAX` exactly. (The adjacent gap loop uses
`checked_add`; the unchecked `vfd + 1` contradicts that intent.) -/
theorem next_vfd_wrap_c9 :
    ((FdTable.new.allocate_at INT_MAX (.passthrough 7 0 none)).2).next_vfd =
      -2147483648 ∧ ¬ (3 : Int) ≤ -2147483648 := by
  constructor
  · simp [FdTable.allocate_at, FdTable.new, INT_MAX, wrap32]
  · decide

/-! ### Claim C1 -/

/-- C1 amended: at every state reachable without aiming
`allocate_at`/`duplicate_at` at `i32::MAX` (so `next_vfd` never
overflows), whenever `allocate(e)` returns a VFD it is the smallest
integer `≥ 3` absent from the mapping at the moment of the call, and
`e` is installed there. -/
theorem allocate_lowest_c1 (t : FdTable) (e : FdEntry) (v : Int) (t' : FdTable)
    (hR : ReachM t) (h : t.allocate e = some (v, t')) :
    3 ≤ v ∧ containsKey t.entries v = false ∧
      (∀ u, 3 ≤ u → u < v → containsKey t.entries u = true) ∧
      lookupEntry t'.entries v = some e := by
  obtain ⟨hnd, ⟨hn3, hnM⟩, hfnd, hfree, hkeys, hcomp⟩ := reachM_TableInv t hR
  rcases allocate_cases t e v t' h with
    ⟨rest, hpop, rfl⟩ | ⟨hfe, hmax, hff, rfl⟩ | ⟨hfe, hmax, rfl, rfl⟩
  · obtain ⟨hm, hmin, -⟩ := popMin_spec _ _ _ hpop
    obtain ⟨h3, hlt, habs⟩ := hfree v hm
    refine ⟨h3, habs, ?_, lookupEntry_insertEntry_self _ _ _⟩
    intro u h3u hu
    by_cases hc : containsKey t.entries u = true
    · exact hc
    · rcases hcomp u h3u (by omega) with hcc | hmem
      · exact absurd hcc hc
      · have := hmin u hmem
        omega
  · obtain ⟨h3, hvM, habs, -⟩ := findFree_scan_spec _ _ _ hff
    rcases hcomp v h3 (by rw [hmax]; exact hvM) with hcc | hmem
    · rw [containsKey_false_iff] at habs
      exact absurd hcc habs
    · rw [hfe] at hmem
      simp at hmem
  · refine ⟨hn3, ?_, ?_, lookupEntry_insertEntry_self _ _ _⟩
    · rw [containsKey_false_iff]
      intro hcc
      exact absurd (hkeys _ hn3 hcc) (lt_irrefl _)
    · intro u h3u hu
      rcases hcomp u h3u hu with hcc | hmem
      · exact hcc
      · rw [hfe] at hmem
        simp at hmem

/-- C1 witness: on the fresh table, `allocate` returns 3 and installs
the entry there. -/
theorem allocate_lowest_c1_witness :
    containsKey FdTable.new.entries 3 = false ∧
    lookupEntry
      (⟨[(0, .passthrough 0 0 none), (1, .passthrough 1 0 none),
         (2, .passthrough 2 0 none), (3, .passthrough 55 0 none)], 4,
        []⟩ : FdTable).entries 3 = some (.passthrough 55 0 none) :=
  ⟨(allocate_lowest_c1 FdTable.new (.passthrough 55 0 none) 3
      ⟨[(0, .passthrough 0 0 none), (1, .passthrough 1 0 none),
        (2, .passthrough 2 0 none), (3, .passthrough 55 0 none)], 4, []⟩
      ReachM.new (by decide)).2.1,
   (allocate_lowest_c1 FdTable.new (.passthrough 55 0 none) 3
      ⟨[(0, .passthrough 0 0 none), (1, .passthrough 1 0 none),
        (2, .passthrough 2 0 none), (3, .passthrough 55 0 none)], 4, []⟩
      ReachM.new (by decide)).2.2.2⟩

/-- Iterate `allocate`, discarding the returned VFDs; `none` if any call
panics. -/
def iterAlloc (e : FdEntry) : Nat → FdTable → Option FdTable
  | 0, t => some t
  | n + 1, t =>
    match t.allocate e with
    | none => none
    | some (_, t') => iterAlloc e n t'

theorem iterAlloc_reach (e : FdEntry) :
    ∀ (n : Nat) (t t' : FdTable), Reach t → iterAlloc e n t = some t' →
      Reach t' := by
  intro n
  induction n with
  | zero =>
    intro t t' h heq
    simp only [iterAlloc, Option.some.injEq] at heq
    exact heq ▸ h
  | succ m ih =>
    intro t t' h heq
    simp only [iterAlloc] at heq
    cases ha : t.allocate e with
    | none => rw [ha] at heq; simp at heq
    | some p =>
      obtain ⟨v, t1⟩ := p
      rw [ha] at heq
      dsimp only at heq
      exact ih t1 t' (Reach.allocate t t1 e v h ha) heq

/-- A table with empty free set, `next_vfd = m` and exactly the keys
`[0, m)` allocated turns, after `n` more `allocate` calls
(`m + n ≤ i32::MAX`), into the same shape at `m + n`. -/
theorem iterAlloc_full (e : FdEntry) :
    ∀ (n : Nat) (t : FdTable),
      t.free_fds = [] → 3 ≤ t.next_vfd → t.next_vfd + n ≤ INT_MAX →
      (∀ k, containsKey t.entries k = true ↔ (0 ≤ k ∧ k < t.next_vfd)) →
      ∃ t', iterAlloc e n t = some t' ∧ t'.free_fds = [] ∧
        t'.next_vfd = t.next_vfd + n ∧
        (∀ k, containsKey t'.entries k = true ↔
          (0 ≤ k ∧ k < t.next_vfd + n)) := by
  intro n
  induction n with
  | zero =>
    intro t hf h3 hM hcon
    refine ⟨t, rfl, hf, by simp, ?_⟩
    intro k
    rw [hcon k]
    constructor
    · rintro ⟨h1, h2⟩
      exact ⟨h1, by push_cast; omega⟩
    · rintro ⟨h1, h2⟩
      push_cast at h2
      exact ⟨h1, by omega⟩
  | succ m ih =>
    intro t hf h3 hM hcon
    push_cast at hM
    have hne : t.next_vfd ≠ INT_MAX := by omega
    have ha : t.allocate e = some (t.next_vfd,
        { t with entries := insertEntry t.entries t.next_vfd e,
                 next_vfd := t.next_vfd + 1 }) := by
      rw [FdTable.allocate, hf]
      dsimp only [popMin, listMin]
      rw [if_neg hne]
    have hcon1 : ∀ k, containsKey (insertEntry t.entries t.next_vfd e) k = true ↔
        (0 ≤ k ∧ k < t.next_vfd + 1) := by
      intro k
      rw [containsKey_insertEntry, hcon k]
      constructor
      · rintro (rfl | ⟨h1, h2⟩)
        · exact ⟨by omega, by omega⟩
        · exact ⟨h1, by omega⟩
      · rintro ⟨h1, h2⟩
        by_cases hk : k = t.next_vfd
        · exact Or.inl hk
        · exact Or.inr ⟨h1, by omega⟩
    obtain ⟨t', hit, hfr, hnx, hcn⟩ := ih
      { t with entries := insertEntry t.entries t.next_vfd e,
               next_vfd := t.next_vfd + 1 }
      hf (by dsimp only; omega) (by dsimp only; push_cast; omega) hcon1
    refine ⟨t', ?_, hfr, ?_, ?_⟩
    · simp only [iterAlloc]
      rw [ha]
      dsimp only
      exact hit
    · rw [hnx]
      dsimp only
      push_cast
      omega
    · intro k
      rw [hcn k]
      dsimp only
      constructor
      · rintro ⟨h1, h2⟩
        exact ⟨h1, by push_cast at h2 ⊢; omega⟩
      · rintro ⟨h1, h2⟩
        push_cast at h2 ⊢
        exact ⟨h1, by omega⟩

theorem contains_new_iff (k : Int) :
    containsKey FdTable.new.entries k = true ↔
      (0 ≤ k ∧ k < FdTable.new.next_vfd) := by
  by_cases h0 : k = 0
  · subst h0
    simp [containsKey, lookupEntry, FdTable.new]
  by_cases h1 : k = 1
  · subst h1
    simp [containsKey, lookupEntry, FdTable.new]
  by_cases h2 : k = 2
  · subst h2
    simp [containsKey, lookupEntry, FdTable.new]
  · simp only [containsKey, lookupEntry, FdTable.new]
    rw [if_neg h0, if_neg h1, if_neg h2]
    constructor
    · intro h
      exact absurd h (by simp)
    · rintro ⟨hk0, hk3⟩
      exfalso
      omega

/-- C1 counterexample: the claim as stated — over all states reachable
by the public operations — is false. Filling every VFD of
`[3, i32::MAX)` with `allocate`, then calling
`allocate_at(i32::MAX, ·)` (which wraps `next_vfd` to `-2^31`), puts
the table in a reachable state where the next `allocate` returns
`-2147483648`, which is not a non-negative integer `≥ 3`. -/
theorem allocate_lowest_cex_c1 :
    ¬ (∀ (t : FdTable) (e : FdEntry) (v : Int) (t' : FdTable),
        Reach t → t.allocate e = some (v, t') →
        3 ≤ v ∧ containsKey t.entries v = false ∧
          (∀ u, 3 ≤ u → u < v → containsKey t.entries u = true) ∧
          lookupEntry t'.entries v = some e) := by
  intro hclaim
  obtain ⟨tf, hit, hfr, hnx, hcn⟩ :=
    iterAlloc_full (.passthrough 7 0 none) (INT_MAX - 3).toNat FdTable.new
      rfl (by decide)
      (by rw [toNat_coe_of_le 3 INT_MAX (by decide)]; decide)
      contains_new_iff
  have heqM : tf.next_vfd = INT_MAX := by
    rw [hnx, toNat_coe_of_le 3 INT_MAX (by decide)]
    show (3 : Int) + (INT_MAX - 3) = INT_MAX
    omega
  have hRf : Reach tf :=
    iterAlloc_reach (.passthrough 7 0 none) _ FdTable.new tf Reach.new hit
  -- the overflowing allocate_at
  have hfr2 : ((tf.allocate_at INT_MAX (.passthrough 8 0 none)).2).free_fds = [] := by
    rw [allocate_at_eq]
    dsimp only
    rw [if_pos (by omega), hfr, heqM]
    show repopGaps tf.entries INT_MAX ((INT_MAX - INT_MAX).toNat)
      (removeAllFree [] INT_MAX) = []
    rw [show ((INT_MAX - INT_MAX).toNat) = 0 from by simp]
    rfl
  have hnx2 : ((tf.allocate_at INT_MAX (.passthrough 8 0 none)).2).next_vfd =
      -2147483648 := by
    rw [allocate_at_eq]
    dsimp only
    rw [if_pos (by omega)]
    decide
  have hR2 : Reach ((tf.allocate_at INT_MAX (.passthrough 8 0 none)).2) :=
    Reach.allocate_at tf _ INT_MAX (.passthrough 8 0 none)
      ((tf.allocate_at INT_MAX (.passthrough 8 0 none)).1) hRf rfl
  -- the allocate that hands out a negative VFD
  have ha : ((tf.allocate_at INT_MAX (.passthrough 8 0 none)).2).allocate
      (.passthrough 9 0 none) = some (-2147483648,
        { (tf.allocate_at INT_MAX (.passthrough 8 0 none)).2 with
          entries := insertEntry
            ((tf.allocate_at INT_MAX (.passthrough 8 0 none)).2).entries
            ((tf.allocate_at INT_MAX (.passthrough 8 0 none)).2).next_vfd
            (.passthrough 9 0 none),
          next_vfd := ((tf.allocate_at INT_MAX (.passthrough 8 0 none)).2).next_vfd + 1 }) := by
    rw [FdTable.allocate, hfr2]
    dsimp only [popMin, listMin]
    rw [if_neg (by rw [hnx2]; decide)]
    rw [hnx2, hfr2]
  have := (hclaim _ (.passthrough 9 0 none) (-2147483648) _ hR2 ha).1
  omega

/-! ### Claim C6 -/

/-- A public mutating operation, as issued through a table handle; the
returned values are dropped. An operation whose Rust counterpart panics
leaves the state unchanged (the process never observes anything after
a panic). -/
inductive FdOp : Type
  | alloc (e : FdEntry)
  | allocMin (m : Int) (e : FdEntry)
  | allocAt (v : Int) (e : FdEntry)
  | dealloc (v : Int)
  | dup (old : Int)
  | dupAt (old n : Int)

/-- Apply one operation to an inner table state. -/
def applyOp (t : FdTable) : FdOp → FdTable
  | .alloc e =>
    match t.allocate e with
    | none => t
    | some (_, t') => t'
  | .allocMin m e =>
    match t.allocate_min m e with
    | none => t
    | some (_, t') => t'
  | .allocAt v e => (t.allocate_at v e).2
  | .dealloc v => (t.deallocate v).2
  | .dup old =>
    match t.duplicate old with
    | none => t
    | some (_, t') => t'
  | .dupAt old n => (t.duplicate_at old n).2

/-- The store of `FdTableInner` states living behind `Arc<Mutex<..>>`
allocations; a table handle is an index into this store. Rust `Clone`
copies the index (the two handles share state); `deep_clone` appends a
value copy and hands back a fresh index. -/
abbrev TableStore : Type := List FdTable

/-- Dereference a handle. -/
def readTable (h : TableStore) (i : Nat) : FdTable :=
  List.getD h i FdTable.new

/-- `FdTable::deep_clone` on the store: append a value copy of the
pointed-to inner state; the new handle is the fresh index. -/
def deepCloneAt (h : TableStore) (i : Nat) : TableStore × Nat :=
  (h ++ [readTable h i], h.length)

/-- Run a sequence of operations through the handle `i`, mutating only
the store cell it points to. -/
def runOpsAt : List FdOp → TableStore → Nat → TableStore
  | [], h, _ => h
  | op :: rest, h, i => runOpsAt rest (List.set h i (applyOp (readTable h i) op)) i

theorem readTable_set_ne :
    ∀ (h : List FdTable) (j i : Nat) (x : FdTable), i ≠ j →
      List.getD (List.set h j x) i FdTable.new = List.getD h i FdTable.new := by
  intro h
  induction h with
  | nil =>
    intro j i x hne
    simp [List.set]
  | cons a l ih =>
    intro j i x hne
    cases j with
    | zero =>
      cases i with
      | zero => exact absurd rfl hne
      | succ i' => simp [List.set, List.getD]
    | succ j' =>
      cases i with
      | zero => simp [List.set, List.getD]
      | succ i' =>
        simp only [List.set, List.getD_cons_succ]
        exact ih j' i' x (by omega)

theorem runOpsAt_frame :
    ∀ (ops : List FdOp) (h : TableStore) (i j : Nat), i ≠ j →
      readTable (runOpsAt ops h j) i = readTable h i := by
  intro ops
  induction ops with
  | nil =>
    intro h i j hne
    rfl
  | cons op rest ih =>
    intro h i j hne
    simp only [runOpsAt]
    rw [ih _ i j hne]
    exact readTable_set_ne h j i _ hne

theorem readTable_append_last (h : List FdTable) (x : FdTable) :
    List.getD (h ++ [x]) h.length FdTable.new = x := by
  induction h with
  | nil => rfl
  | cons a l ih => simpa [List.getD] using ih

theorem readTable_append_lt :
    ∀ (h : List FdTable) (x : FdTable) (i : Nat), i < h.length →
      List.getD (h ++ [x]) i FdTable.new = List.getD h i FdTable.new := by
  intro h
  induction h with
  | nil =>
    intro x i hi
    simp at hi
  | cons a l ih =>
    intro x i hi
    cases i with
    | zero => rfl
    | succ i' =>
      simp only [List.cons_append, List.getD_cons_succ]
      exact ih x i' (by simpa using hi)

/-- C6: after `deep_clone`, any sequence of public operations performed
through the clone's handle leaves every observable of the original
(`translate` and `get` at every VFD) unchanged, and any sequence
performed through the original's handle leaves the clone unchanged. -/
theorem deep_clone_independent_c6 (h : TableStore) (i : Nat)
    (ops ops2 : List FdOp) (hi : i < h.length) :
    (∀ v,
      (readTable (runOpsAt ops (deepCloneAt h i).1 (deepCloneAt h i).2) i).translate v
        = (readTable h i).translate v ∧
      (readTable (runOpsAt ops (deepCloneAt h i).1 (deepCloneAt h i).2) i).get v
        = (readTable h i).get v) ∧
    (∀ v,
      (readTable (runOpsAt ops2 (deepCloneAt h i).1 i) (deepCloneAt h i).2).translate v
        = (readTable h i).translate v ∧
      (readTable (runOpsAt ops2 (deepCloneAt h i).1 i) (deepCloneAt h i).2).get v
        = (readTable h i).get v) := by
  have hne : i ≠ h.length := by omega
  have h1 : readTable (runOpsAt ops (deepCloneAt h i).1 (deepCloneAt h i).2) i
      = readTable h i := by
    show readTable (runOpsAt ops (h ++ [readTable h i]) h.length) i = readTable h i
    rw [runOpsAt_frame ops _ i h.length hne]
    exact readTable_append_lt h (readTable h i) i hi
  have h2 : readTable (runOpsAt ops2 (deepCloneAt h i).1 i) (deepCloneAt h i).2
      = readTable h i := by
    show readTable (runOpsAt ops2 (h ++ [readTable h i]) i) h.length = readTable h i
    rw [runOpsAt_frame ops2 _ h.length i (by omega)]
    exact readTable_append_last h (readTable h i)
  exact ⟨fun v => ⟨by rw [h1], by rw [h1]⟩, fun v => ⟨by rw [h2], by rw [h2]⟩⟩

/-- C6 witness: a one-element store; allocating through the clone leaves
the original's `translate 3` unchanged. -/
theorem deep_clone_independent_c6_witness :
    (readTable
      (runOpsAt [FdOp.alloc (.passthrough 100 0 none)]
        (deepCloneAt [FdTable.new] 0).1 (deepCloneAt [FdTable.new] 0).2)
      0).translate 3 = (readTable [FdTable.new] 0).translate 3 :=
  ((deep_clone_independent_c6 [FdTable.new] 0
    [FdOp.alloc (.passthrough 100 0 none)] [] (by decide)).1 3).1

/-! ### Claim C10, revisited over full reachability -/

